import Mathlib

/-!
Verification of the Quantum32 Hybrid Sampler PC client
(`pc_client_maxcut.py`): a shallow embedding of the stream-reassembly and
online-scoring engine of `main`, together with theorems settling the
specification claims.

Modelling conventions:
* Python `dict` values are modelled as association lists in insertion
  order (`dictSet` overwrites in place for an existing key and appends a
  fresh key, exactly like CPython dicts); key lists of reachable states
  are duplicate-free.
* Python machine floats that the program manipulates (`score`,
  `best_score = -1e18`, the edge weight `1.0`, the parsed `noise` field)
  are modelled as exact rationals: every value the scoring path produces
  is a small dyadic/decimal rational on which float arithmetic is exact.
* `int(...)`/`float(...)` applied to protocol fields are modelled by
  `parseInt`/`parseFloat`, faithful to CPython's acceptance on ASCII
  input: surrounding whitespace, an optional sign, underscore-separated
  digit groups, fraction and exponent forms, and `inf`/`nan`
  (represented by sentinel rationals — the parsed `noise` is stored but
  never read, so only acceptance is observable).  `none` models
  `ValueError`; the enclosing `try ... except` of the source is the
  `none` branch of the caller.
* A Python `IndexError` that no handler catches (list indexing in
  `maxcut_score`) is modelled by an `Option` result: `none` means the
  iteration would raise.
-/

namespace MaxCutClient

/-- Association-list model of a Python `dict` lookup (`d[k]` / `d.get(k)`). -/
def dictLookup {κ α : Type} [BEq κ] (d : List (κ × α)) (k : κ) : Option α :=
  (d.find? (fun p => p.1 == k)).map (fun p => p.2)

/-- Association-list model of the Python `k in d` membership test. -/
def dictMem {κ α : Type} [BEq κ] (d : List (κ × α)) (k : κ) : Bool :=
  d.any (fun p => p.1 == k)

/-- Association-list model of the Python assignment `d[k] = v`: an existing
key keeps its insertion position and gets the new value (the first — in a
dict, only — occurrence is replaced), a fresh key is appended at the end
(CPython dict order). -/
def dictSet {κ α : Type} [BEq κ] : List (κ × α) → κ → α → List (κ × α)
  | [], k, v => [(k, v)]
  | p :: t, k, v => if p.1 == k then (k, v) :: t else p :: dictSet t k v

/-- Model of Python `d.keys()` (in insertion order). -/
def dictKeys {κ α : Type} (d : List (κ × α)) : List κ := d.map (fun p => p.1)

/-- Model of Python `str.startswith`: prefix test on the character data. -/
def startswith (s pre : String) : Bool := pre.data.isPrefixOf s.data

/-- Split a character list at every occurrence of `sep` (the list-level
model of Python `str.split(sep)` for a one-character separator): always
returns one more group than there are separators. -/
def splitOnChar (sep : Char) : List Char → List (List Char)
  | [] => [[]]
  | c :: rest =>
    match splitOnChar sep rest with
    | [] => [[]]
    | g :: gs => if c = sep then [] :: g :: gs else (c :: g) :: gs

/-- Model of Python `line.split(",")` (source line 266). -/
def pySplit (s : String) (sep : Char) : List String :=
  (splitOnChar sep s.data).map (fun cs => String.mk cs)

/-- Model of Python `str.strip()`: drop whitespace from both ends. -/
def pyStrip (s : String) : String :=
  String.mk (((s.data.dropWhile (fun c => c.isWhitespace)).reverse.dropWhile
    (fun c => c.isWhitespace)).reverse)

/-- Numeric value of a digit string (the accumulator loop of a decimal
parse): `digitsToNat "123".data = 123`. -/
def digitsToNat (cs : List Char) : Nat := cs.foldl (fun a c => a * 10 + (c.toNat - 48)) 0

/-- The ASCII whitespace characters Python's `int()`/`float()` strip
from both ends of their argument (space, tab, newline, carriage return,
vertical tab, form feed).  Non-ASCII whitespace such as U+0085, which
CPython also strips, is outside this model: the serial protocol is
ASCII. -/
def pyIsSpace (c : Char) : Bool :=
  c = ' ' || c = '\t' || c = '\n' || c = '\r' || c.toNat = 11 || c.toNat = 12

/-- Strip `pyIsSpace` characters from both ends. -/
def stripPyWS (cs : List Char) : List Char :=
  ((cs.dropWhile pyIsSpace).reverse.dropWhile pyIsSpace).reverse

/-- Continuation of a digit group after its first digit: digits with
single underscores allowed only between digits (Python's underscore
rule: `int("5_0") = 50`, while `_5`, `5_` and `5__0` raise). -/
def udigitsAux : List Char → Bool
  | [] => true
  | '_' :: rest =>
    match rest with
    | [] => false
    | c :: rest' => c.isDigit && udigitsAux rest'
  | c :: rest => c.isDigit && udigitsAux rest

/-- A nonempty underscore-separated digit group. -/
def isUDigits (cs : List Char) : Bool :=
  match cs with
  | [] => false
  | c :: rest => c.isDigit && udigitsAux rest

/-- Numeric value of a digit group, underscores removed. -/
def udigitsVal (cs : List Char) : Nat :=
  digitsToNat (cs.filter (fun c => c ≠ '_'))

/-- Number of digits of a digit group, underscores removed. -/
def udigitsLen (cs : List Char) : Nat := (cs.filter (fun c => c ≠ '_')).length

/-- Consume one optional leading sign: `(isNegative, rest)`. -/
def parseSign : List Char → Bool × List Char
  | '-' :: rest => (true, rest)
  | '+' :: rest => (false, rest)
  | cs => (false, cs)

/-- Model of Python `int(s)` in base 10: optional surrounding
whitespace, an optional sign, then one nonempty underscore-separated
digit group; everything else raises `ValueError`, i.e. `none`
(`int(" +5 ") = 5`, `int("- 5")` raises).  Non-ASCII decimal digits,
which CPython would also accept, are outside this model. -/
def parseInt (s : String) : Option Int :=
  let cs := stripPyWS s.data
  let sgn := parseSign cs
  if isUDigits sgn.2 then
    some (if sgn.1 then -(udigitsVal sgn.2 : Int) else (udigitsVal sgn.2 : Int))
  else none

/-- Case-insensitive comparison against a lowercase pattern. -/
def lowerIs (cs pat : List Char) : Bool := cs.map Char.toLower == pat

/-- The mantissa of a Python float literal: an integer digit group, or a
fraction point with digit groups on either side, at most one of them
empty (`5`, `5.`, `.5`, `1_0.2_5` are accepted; `.` and `1._5` raise);
the value is the exact rational of the decimal form. -/
def parseMantissa (cs : List Char) : Option ℚ :=
  let ip := cs.takeWhile (fun c => !(c == '.'))
  match cs.dropWhile (fun c => !(c == '.')) with
  | [] => if isUDigits cs then some (udigitsVal cs : ℚ) else none
  | _ :: fp =>
    if ip.isEmpty && fp.isEmpty then none
    else if (ip.isEmpty || isUDigits ip) && (fp.isEmpty || isUDigits fp) then
      some ((udigitsVal ip : ℚ) + (udigitsVal fp : ℚ) / (10 : ℚ) ^ udigitsLen fp)
    else none

/-- Model of Python `float(s)`: optional surrounding whitespace, an
optional sign, then `inf`/`infinity`/`nan` (case-insensitive) or a
decimal mantissa with an optional `e`/`E` exponent over a signed
underscore-separated digit group (`float(" 1e-3 ") = 0.001`,
`float("1e_5")` raises).  Acceptance is faithful to CPython on ASCII
input.  Values are the exact rationals of the decimal forms (module
conventions; the program stores the parsed `noise` but never reads it,
so only acceptance is observable), with `10^400`-based sentinel
rationals standing in for the non-finite `inf`/`nan`. -/
def parseFloat (s : String) : Option ℚ :=
  let cs := stripPyWS s.data
  let sgn := parseSign cs
  let withSign : ℚ → ℚ := fun q => if sgn.1 then -q else q
  if lowerIs sgn.2 ['i', 'n', 'f']
      || lowerIs sgn.2 ['i', 'n', 'f', 'i', 'n', 'i', 't', 'y'] then
    some (withSign ((10 : ℚ) ^ (400 : Nat)))
  else if lowerIs sgn.2 ['n', 'a', 'n'] then
    some (withSign ((10 : ℚ) ^ (400 : Nat) + 1))
  else
    let mant := sgn.2.takeWhile (fun c => !(c == 'e' || c == 'E'))
    match sgn.2.dropWhile (fun c => !(c == 'e' || c == 'E')) with
    | [] => (parseMantissa mant).map withSign
    | _ :: ex =>
      let esgn := parseSign ex
      if isUDigits esgn.2 then
        (parseMantissa mant).map (fun m =>
          withSign (m * (10 : ℚ) ^
            (if esgn.1 then -(udigitsVal esgn.2 : Int)
             else (udigitsVal esgn.2 : Int))))
      else none

/-- `bits_from_bmask` (source lines 112-113): bit `i` of the mask,
`(bmask >> i) & 1`, for `i` in `range(width)`.  Python `>>` is floor
division by `2^i` (`Int.fdiv`) and `& 1` is the nonnegative remainder
mod 2 (`Int.emod`, Lean's `%`). -/
def bits_from_bmask (bmask : Int) (width : Nat := 4) : List Int :=
  (List.range width).map (fun i => (Int.fdiv bmask (2 ^ i)) % 2)

/-- One weighted edge `(i, j, w)`. -/
abbrev Edge := Nat × Nat × ℚ

/-- `maxcut_score` (source lines 115-120): left-to-right accumulation over
the edge list, adding `w` whenever the endpoint bits differ.  The
accumulator is explicit; `none` models the `IndexError` Python would raise
on an out-of-range endpoint. -/
def maxcut_go (bits : List Int) (acc : ℚ) : List Edge → Option ℚ
  | [] => some acc
  | (i, j, w) :: es =>
    match bits[i]?, bits[j]? with
    | some bi, some bj => maxcut_go bits (if bi ≠ bj then acc + w else acc) es
    | _, _ => none

/-- `maxcut_score(bits, edges)` with `score = 0.0` initial accumulator. -/
def maxcut_score (bits : List Int) (edges : List Edge) : Option ℚ :=
  maxcut_go bits 0 edges

/-- `make_ring_edges` (source lines 122-123): edge `i—(i+1) mod n` of
weight `w` for each `i` in `range(n)`. -/
def make_ring_edges (n : Nat) (w : ℚ := 1) : List Edge :=
  (List.range n).map (fun i => (i, (i + 1) % n, w))

/-- `RING_WEIGHT = 1.0` (source line 96). -/
def RING_WEIGHT : ℚ := 1

/-- `build_edges` (source lines 125-131) with the configured
`GRAPH_TYPE = "ring"`. -/
def build_edges (n_bits : Nat) : List Edge := make_ring_edges n_bits RING_WEIGHT

/-- `READ_TIMEOUT_S = 25` (source line 99). -/
def READ_TIMEOUT_S : ℚ := 25

/-- `parse_kv_from_batch_header` (source lines 133-144): strip the
`@BATCH` marker, split on whitespace, keep `KEY=VALUE` tokens
(`split("=", 1)` semantics, duplicate keys last-wins via dict update). -/
def parse_kv_from_batch_header (line : String) : List (String × String) :=
  let tokens := ((line.replace "@BATCH" "").trim.split (fun c => c.isWhitespace)).filter
    (fun t => t ≠ "")
  tokens.foldl
    (fun out t =>
      if t.contains '=' then
        match t.splitOn "=" with
        | [] => out
        | k :: rest => dictSet out k.trim (String.intercalate "=" rest).trim
      else out)
    []

/-- One worker's stored record `(bmask, loss, noise, seed)`
(source line 283). -/
structure Sample where
  bmask : Int
  loss : Int
  noise : ℚ
  seed : Int
deriving DecidableEq, Repr

/-- A Round: the per-tick dict `slaveIndex -> sample`. -/
abbrev Round := List (Int × Sample)

/-- The active set: `tick_buffer`, dict `tick -> round` (source line 239). -/
abbrev Buffer := List (Int × Round)

/-- A parsed `O,...` data message (source lines 270-276). -/
structure DataMsg where
  tick : Int
  sidx : Int
  bmask : Int
  loss : Int
  noise : ℚ
  seed : Int
deriving DecidableEq, Repr

/-- The mutable session state of `main`'s streaming loop
(source lines 226-239). -/
structure St where
  batchMeta : Option (List (String × String))
  tick_buffer : Buffer
  best_score : ℚ
  best_bits : Option (List Int)
  best_tick : Option Int
  all_scores : List ℚ
  all_samples : List (Int × ℚ × String)
  best_history : List (Int × ℚ)
deriving DecidableEq

/-- Initial state: `best_score = -1e18` (exactly `-(10^18)`), everything
else empty (source lines 226-239). -/
def initSt : St :=
  { batchMeta := none
    tick_buffer := []
    best_score := -(10 ^ 18 : ℚ)
    best_bits := none
    best_tick := none
    all_scores := []
    all_samples := []
    best_history := [] }

/-- Static configuration: `NUM_SLAVES`, `BITS_PER_SLAVE` and the edge
list `edges = build_edges(n_bits)` computed before the loop
(source lines 193-194). -/
structure Cfg where
  numSlaves : Nat
  bitsPerSlave : Nat
  edges : List Edge
deriving DecidableEq

/-- The module defaults `NUM_SLAVES = 4`, `BITS_PER_SLAVE = 4`,
`edges = build_edges(16)` (source lines 80-81, 193-194). -/
def defaultCfg : Cfg := { numSlaves := 4, bitsPerSlave := 4, edges := build_edges 16 }

/-- The vector-assembly loop (source lines 291-296): for `s` in
`range(NUM_SLAVES)` starting at `s0` with `fuel` indices left, stop at the
first missing slave index, else collect that slave's bit chunk. -/
def buildVecFrom (round : Round) (w : Nat) : Nat → Nat → List (List Int)
  | 0, _ => []
  | Nat.succ fuel, s =>
    match dictLookup round (Int.ofNat s) with
    | none => []
    | some smp => bits_from_bmask smp.bmask w :: buildVecFrom round w fuel (s + 1)

/-- `vec` as assembled at source lines 291-296: chunks for slave indices
`0, 1, ...` up to the first missing one. -/
def buildVec (round : Round) (n w : Nat) : List (List Int) := buildVecFrom round w n 0

/-- `"".join(str(int(x)) for x in bits)` (source line 300). -/
def bitstrOf (bits : List Int) : String := String.join (bits.map (fun x => toString x))

/-- The best-so-far update (source lines 307-311): strict `>` comparison;
on improvement the triple becomes `(score, bits.copy(), tick)`. -/
def updateBest (best : ℚ × Option (List Int) × Option Int) (x : Int × ℚ × List Int) :
    ℚ × Option (List Int) × Option Int :=
  if best.1 < x.2.1 then (x.2.1, some x.2.2, some x.1) else best

/-- The memory-bounding cleanup (source lines 320-322):
`sorted(tick_buffer.keys())[:-20]` are popped, i.e. all but the 20
numerically largest ticks are removed. -/
def evictOld (buf : Buffer) : Buffer :=
  let olds := (List.insertionSort (fun a b : Int => a ≤ b) (dictKeys buf)).take
    (buf.length - 20)
  buf.filter (fun p => !(olds.contains p.1))

/-- The round stored at `tick_buffer[tick]` right after the write
`tick_buffer[tick][sidx] = (bmask, loss, noise, seed)` (source lines
280-283); an existing entry for `sidx` is overwritten — last write wins. -/
def roundAfter (st : St) (d : DataMsg) : Round :=
  dictSet ((dictLookup st.tick_buffer d.tick).getD []) d.sidx
    ⟨d.bmask, d.loss, d.noise, d.seed⟩

/-- `tick_buffer` right after the write of source lines 280-283, before
any cleanup. -/
def bufAfter (st : St) (d : DataMsg) : Buffer :=
  dictSet st.tick_buffer d.tick (roundAfter st d)

/-- Source lines 291-317: assemble `vec` from the round; when it is full
(`len(vec) == NUM_SLAVES`), score the concatenated bits, append to
`all_scores`/`all_samples`, update the best triple by strict `>` and
append to `best_history`.  The buffer already holds the written round.
`none` models an uncaught `IndexError` inside `maxcut_score`. -/
def scoreStep (cfg : Cfg) (st : St) (d : DataMsg) : Option St :=
  let vec := buildVec (roundAfter st d) cfg.numSlaves cfg.bitsPerSlave
  if vec.length = cfg.numSlaves then
    let bits := vec.flatten
    match maxcut_score bits cfg.edges with
    | none => none
    | some score =>
      let b := updateBest (st.best_score, st.best_bits, st.best_tick)
        (d.tick, score, bits)
      some { st with
        tick_buffer := bufAfter st d
        all_scores := st.all_scores ++ [score]
        all_samples := st.all_samples ++ [(d.tick, score, bitstrOf bits)]
        best_score := b.1
        best_bits := b.2.1
        best_tick := b.2.2
        best_history := st.best_history ++ [(d.tick, b.1)] }
  else some { st with tick_buffer := bufAfter st d }

/-- The memory-bounding cleanup of source lines 319-322, run (only) at the
end of the `len(tick_buffer[tick]) >= NUM_SLAVES` branch. -/
def cleanupStep (st1 : St) : St :=
  if 50 < st1.tick_buffer.length
  then { st1 with tick_buffer := evictOld st1.tick_buffer } else st1

/-- Ingestion of one parsed data message (source lines 280-322): store the
sample (last write wins); if the round now holds at least `NUM_SLAVES`
entries, try to assemble and score, then run the cleanup.  Note: the
source never removes a completed round, and the cleanup check is nested
inside the `len(tick_buffer[tick]) >= NUM_SLAVES` branch. -/
def ingestData (cfg : Cfg) (st : St) (d : DataMsg) : Option St :=
  if cfg.numSlaves ≤ (roundAfter st d).length then
    (scoreStep cfg st d).map cleanupStep
  else some { st with tick_buffer := bufAfter st d }

/-- Fold `ingestData` over a list of data messages (stops at a `none`). -/
def ingestAll (cfg : Cfg) (st : St) (ds : List DataMsg) : Option St :=
  ds.foldlM (fun s d => ingestData cfg s d) st

/-- Parse the comma-split fields of an `O,` line (source lines 266-278):
fewer than 7 parts, or any non-numeric field among parts 1..6, is the
`continue` path (`none`); extra parts beyond index 6 are never read. -/
def parseDataFields (parts : List String) : Option DataMsg :=
  if parts.length < 7 then none
  else
    match parseInt (parts.getD 1 ""), parseInt (parts.getD 2 ""),
      parseInt (parts.getD 3 ""), parseInt (parts.getD 4 ""),
      parseFloat (parts.getD 5 ""), parseInt (parts.getD 6 "") with
    | some tick, some sidx, some bmask, some loss, some noise, some seed =>
      some ⟨tick, sidx, bmask, loss, noise, seed⟩
    | _, _, _, _, _, _ => none

/-- The message kinds the loop body distinguishes (source lines 247-278). -/
inductive Msg where
  | empty
  | batch (fields : List (String × String))
  | doneMsg
  | dataMsg (d : DataMsg)
  | unparseable
  | info
deriving DecidableEq

/-- Classification of one stripped line, in the source's dispatch order
(source lines 247-278): empty, `@BATCH`, `@DONE`, `O,` (parsed or
discarded), anything else a diagnostic. -/
def classifyLine (line : String) : Msg :=
  if line = "" then Msg.empty
  else if startswith line "@BATCH" then Msg.batch (parse_kv_from_batch_header line)
  else if startswith line "@DONE" then Msg.doneMsg
  else if startswith line "O," then
    match parseDataFields (pySplit line ',') with
    | some d => Msg.dataMsg d
    | none => Msg.unparseable
  else Msg.info

/-- What one loop iteration does next: `contSkip` is a Python `continue`
(the timeout check at source line 325 is skipped), `contCheck` falls
through to the timeout check, `stop` is the `@DONE` break. -/
inductive Signal where
  | contSkip
  | contCheck
  | stop
deriving DecidableEq

/-- One iteration's line handling (source lines 247-322) on an
already-stripped line: `@BATCH` records metadata and continues; `@DONE`
breaks; an `O,` line that parses is ingested; parse failures and
diagnostics change nothing.  `none` models an uncaught exception. -/
def lineStep (cfg : Cfg) (st : St) (line : String) : Option (St × Signal) :=
  match classifyLine line with
  | Msg.empty => some (st, Signal.contCheck)
  | Msg.batch fields => some ({ st with batchMeta := some fields }, Signal.contSkip)
  | Msg.doneMsg => some (st, Signal.stop)
  | Msg.dataMsg d => (ingestData cfg st d).map (fun st1 => (st1, Signal.contCheck))
  | Msg.unparseable => some (st, Signal.contSkip)
  | Msg.info => some (st, Signal.contCheck)

/-- One `ser.readline()` result together with the two wall-clock readings
the iteration takes from the monotonic clock: `rxTime` at source line 248
(only consulted when the stripped line is nonempty) and `chkTime` at the
timeout comparison of source line 325. -/
structure TimedLine where
  raw : String
  rxTime : ℚ
  chkTime : ℚ

/-- How a run of the streaming loop ended. -/
inductive Cause where
  | doneCause
  | timeoutCause
  | errorCause
  | exhausted
deriving DecidableEq

/-- The streaming loop (source lines 244-327) over a finite prefix of
readline results: re-arm `last_rx_time` on every nonempty stripped line,
dispatch the line, and on fall-through paths break when
`chkTime - last_rx_time > READ_TIMEOUT_S`.  `exhausted` means the supplied
prefix ended with the loop still reading. -/
def runLoop (cfg : Cfg) : St → ℚ → List TimedLine → St × ℚ × Cause
  | st, lastRx, [] => (st, lastRx, Cause.exhausted)
  | st, lastRx, tl :: rest =>
    let line := pyStrip tl.raw
    let lastRx1 := if line = "" then lastRx else tl.rxTime
    match lineStep cfg st line with
    | none => (st, lastRx1, Cause.errorCause)
    | some (st1, Signal.stop) => (st1, lastRx1, Cause.doneCause)
    | some (st1, Signal.contSkip) => runLoop cfg st1 lastRx1 rest
    | some (st1, Signal.contCheck) =>
      if READ_TIMEOUT_S < tl.chkTime - lastRx1 then (st1, lastRx1, Cause.timeoutCause)
      else runLoop cfg st1 lastRx1 rest

/-- A round holds a sample for every slave index in `[0, n)` — the
completion notion of the spec's TickAssembler. -/
def completeRound (r : Round) (n : Nat) : Prop :=
  ∀ s, s < n → (dictLookup r (Int.ofNat s)).isSome = true

instance (r : Round) (n : Nat) : Decidable (completeRound r n) := by
  unfold completeRound; infer_instance

/-- The bit chunk a completed round contributes for slave `s`. -/
def chunkAt (r : Round) (w s : Nat) : List Int :=
  bits_from_bmask ((dictLookup r (Int.ofNat s)).getD ⟨0, 0, 0, 0⟩).bmask w

/-- A strict alternating assignment of `n` bits starting with `b`
(the spec's "strict alternating assignment", `b, 1-b, b, 1-b, ...`). -/
def altVec (b : Int) (n : Nat) : List Int :=
  (List.range n).map (fun i => if i % 2 = 0 then b else 1 - b)

/-- The maximum of the scores of a history list, seeded with the
`-1e18` sentinel the source starts from. -/
def maxScoreOf (l : List (Int × ℚ × List Int)) : ℚ :=
  l.foldl (fun a x => max a x.2.1) (-(10 ^ 18 : ℚ))

/-- Modelled from the spec's wording for BestResult: the
earliest-arriving sample whose score equals the maximum seen. -/
def firstMaxSample (l : List (Int × ℚ × List Int)) : Option (Int × ℚ × List Int) :=
  l.find? (fun x => decide (x.2.1 = maxScoreOf l))

/-- Folding the source's best-so-far update (source lines 307-311) over a
history of `(tick, score, bits)` completions, from the initial
`(-1e18, None, None)`. -/
def foldBest (l : List (Int × ℚ × List Int)) : ℚ × Option (List Int) × Option Int :=
  l.foldl updateBest (-(10 ^ 18 : ℚ), none, none)

/-! ### Dictionary lemmas -/


theorem dictMem_cons {κ α : Type} [BEq κ] (p : κ × α) (t : List (κ × α)) (k : κ) :
    dictMem (p :: t) k = (p.1 == k || dictMem t k) := rfl

theorem dictMem_iff {κ α : Type} [BEq κ] [LawfulBEq κ] (d : List (κ × α)) (k : κ) :
    dictMem d k = true ↔ k ∈ dictKeys d := by
  unfold dictMem dictKeys
  simp only [List.any_eq_true, List.mem_map, beq_iff_eq]

theorem dictLookup_nil {κ α : Type} [BEq κ] (k : κ) :
    dictLookup ([] : List (κ × α)) k = none := rfl

theorem dictLookup_cons {κ α : Type} [BEq κ] (p : κ × α) (t : List (κ × α)) (k : κ) :
    dictLookup (p :: t) k = if p.1 == k then some p.2 else dictLookup t k := by
  by_cases h : p.1 == k <;> simp [dictLookup, List.find?, h]

theorem dictLookup_dictSet_self {κ α : Type} [BEq κ] [LawfulBEq κ]
    (d : List (κ × α)) (k : κ) (v : α) :
    dictLookup (dictSet d k v) k = some v := by
  induction d with
  | nil => simp [dictSet, dictLookup_cons]
  | cons p t ih =>
    by_cases h : p.1 == k
    · simp [dictSet, h, dictLookup_cons]
    · simp [dictSet, h, dictLookup_cons, ih]

theorem dictLookup_dictSet_ne {κ α : Type} [BEq κ] [LawfulBEq κ]
    (d : List (κ × α)) (k j : κ) (v : α) (h : j ≠ k) :
    dictLookup (dictSet d k v) j = dictLookup d j := by
  have hkj : ¬((k == j) = true) := by simpa using fun hh => h hh.symm
  induction d with
  | nil => simp [dictSet, dictLookup_cons, hkj, dictLookup_nil]
  | cons p t ih =>
    by_cases hp : p.1 == k
    · have hpk : p.1 = k := by simpa using hp
      simp [dictSet, hp, dictLookup_cons, hkj, hpk]
    · by_cases hj : p.1 == j
      · simp [dictSet, hp, dictLookup_cons, hj]
      · simp [dictSet, hp, dictLookup_cons, hj, ih]

theorem dictMem_dictSet_self {κ α : Type} [BEq κ] [LawfulBEq κ]
    (d : List (κ × α)) (k : κ) (v : α) :
    dictMem (dictSet d k v) k = true := by
  induction d with
  | nil => simp [dictSet, dictMem]
  | cons p t ih =>
    by_cases h : p.1 == k
    · simp [dictSet, h, dictMem_cons]
    · simp [dictSet, h, dictMem_cons, ih]

theorem length_dictSet {κ α : Type} [BEq κ] (d : List (κ × α)) (k : κ) (v : α) :
    (dictSet d k v).length = if dictMem d k then d.length else d.length + 1 := by
  induction d with
  | nil => simp [dictSet, dictMem]
  | cons p t ih =>
    by_cases h : p.1 == k
    · simp [dictSet, h, dictMem_cons]
    · have h' : (p.1 == k) = false := by simpa using h
      simp only [dictSet, h', Bool.false_eq_true, if_false, List.length_cons,
        dictMem_cons, Bool.false_or]
      rw [ih]
      by_cases hm : dictMem t k <;> simp [hm]

theorem dictKeys_dictSet {κ α : Type} [BEq κ] [LawfulBEq κ]
    (d : List (κ × α)) (k : κ) (v : α) :
    dictKeys (dictSet d k v) =
      if dictMem d k then dictKeys d else dictKeys d ++ [k] := by
  induction d with
  | nil => simp [dictSet, dictMem, dictKeys]
  | cons p t ih =>
    by_cases h : p.1 == k
    · have hpk : p.1 = k := by simpa using h
      simp [dictSet, h, dictMem_cons, dictKeys, hpk]
    · have h' : (p.1 == k) = false := by simpa using h
      simp only [dictSet, if_neg h, dictKeys, List.map_cons, dictMem_cons, h',
        Bool.false_or] at ih ⊢
      by_cases hm : dictMem t k <;> simp only [hm, if_true, if_false] at ih ⊢ <;>
        simp [ih]

theorem dictSet_dictSet_same {κ α : Type} [BEq κ] [LawfulBEq κ]
    (d : List (κ × α)) (k : κ) (v : α) :
    dictSet (dictSet d k v) k v = dictSet d k v := by
  induction d with
  | nil => simp [dictSet]
  | cons p t ih =>
    by_cases h : p.1 == k
    · simp [dictSet, h]
    · simp [dictSet, h, ih]

/-! ### Assembly and scoring lemmas -/


theorem bits_from_bmask_length (bm : Int) (w : Nat) :
    (bits_from_bmask bm w).length = w := by
  simp [bits_from_bmask]

theorem buildVecFrom_succ (r : Round) (w fuel s0 : Nat) :
    buildVecFrom r w (fuel + 1) s0 =
      match dictLookup r (Int.ofNat s0) with
      | none => []
      | some smp => bits_from_bmask smp.bmask w :: buildVecFrom r w fuel (s0 + 1) := rfl

theorem buildVecFrom_of_complete (r : Round) (w : Nat) :
    ∀ (fuel s0 : Nat),
      (∀ k, k < fuel → (dictLookup r (Int.ofNat (s0 + k))).isSome = true) →
      buildVecFrom r w fuel s0 = (List.range fuel).map (fun k => chunkAt r w (s0 + k)) := by
  intro fuel
  induction fuel with
  | zero => intro s0 _; simp [buildVecFrom]
  | succ fuel ih =>
    intro s0 h
    have h0 : (dictLookup r (Int.ofNat s0)).isSome = true := by
      simpa using h 0 (Nat.succ_pos fuel)
    obtain ⟨smp, hsmp⟩ := Option.isSome_iff_exists.mp h0
    have hrec := ih (s0 + 1) (fun k hk => by
      have := h (k + 1) (by omega)
      simpa [Nat.add_assoc, Nat.add_comm 1 k] using this)
    have hhead : chunkAt r w (s0 + 0) = bits_from_bmask smp.bmask w := by
      unfold chunkAt
      rw [Nat.add_zero, hsmp, Option.getD_some]
    have htail : List.map ((fun k => chunkAt r w (s0 + k)) ∘ Nat.succ) (List.range fuel)
        = List.map (fun k => chunkAt r w (s0 + 1 + k)) (List.range fuel) := by
      apply List.map_congr_left
      intro k _
      simp only [Function.comp_apply]
      congr 1
      omega
    rw [buildVecFrom_succ, hsmp, hrec, List.range_succ_eq_map, List.map_cons,
      List.map_map, hhead, htail]

theorem buildVecFrom_full (r : Round) (w : Nat) :
    ∀ (fuel s0 : Nat), (buildVecFrom r w fuel s0).length = fuel →
      ∀ k, k < fuel → (dictLookup r (Int.ofNat (s0 + k))).isSome = true := by
  intro fuel
  induction fuel with
  | zero => intro s0 _ k hk; omega
  | succ fuel ih =>
    intro s0 hlen k hk
    rw [buildVecFrom_succ] at hlen
    rcases hlook : dictLookup r (Int.ofNat s0) with _ | smp
    · rw [hlook] at hlen; simp at hlen
    · rw [hlook] at hlen
      simp only [List.length_cons, Nat.succ_inj] at hlen
      rcases k with _ | k
      · simpa using hlook ▸ rfl
      · have := ih (s0 + 1) hlen k (by omega)
        simpa [Nat.add_assoc, Nat.add_comm 1 k] using this

theorem buildVecFrom_chunk_length (r : Round) (w : Nat) :
    ∀ (fuel s0 : Nat) (c : List Int), c ∈ buildVecFrom r w fuel s0 → c.length = w := by
  intro fuel
  induction fuel with
  | zero => intro s0 c hc; simp [buildVecFrom] at hc
  | succ fuel ih =>
    intro s0 c hc
    rw [buildVecFrom_succ] at hc
    rcases hlook : dictLookup r (Int.ofNat s0) with _ | smp
    · rw [hlook] at hc; simp at hc
    · rw [hlook] at hc
      rcases List.mem_cons.mp hc with rfl | hc
      · exact bits_from_bmask_length _ _
      · exact ih (s0 + 1) c hc

theorem buildVecFrom_dictSet_out (r : Round) (w : Nat) (k : Int) (v : Sample) (n : Nat)
    (hk : k < 0 ∨ (n : Int) ≤ k) :
    ∀ (fuel s0 : Nat), s0 + fuel ≤ n →
      buildVecFrom (dictSet r k v) w fuel s0 = buildVecFrom r w fuel s0 := by
  intro fuel
  induction fuel with
  | zero => intro s0 _; simp [buildVecFrom]
  | succ fuel ih =>
    intro s0 hs0
    have hne : (Int.ofNat s0) ≠ k := by
      simp only [Int.ofNat_eq_coe]
      rcases hk with hk | hk <;> omega
    rw [buildVecFrom_succ, buildVecFrom_succ, dictLookup_dictSet_ne r k _ v hne]
    rcases dictLookup r (Int.ofNat s0) with _ | smp
    · rfl
    · rw [ih (s0 + 1) (by omega)]

theorem flatten_length_of_chunks (w : Nat) :
    ∀ (L : List (List Int)), (∀ c ∈ L, c.length = w) →
      L.flatten.length = L.length * w := by
  intro L
  induction L with
  | nil => intro _; simp
  | cons c t ih =>
    intro h
    have hc : c.length = w := h c (List.mem_cons_self c t)
    have ht := ih (fun x hx => h x (List.mem_cons_of_mem _ hx))
    simp only [List.flatten_cons, List.length_append, List.length_cons, hc, ht]
    ring

theorem maxcut_go_eq (bits : List Int) :
    ∀ (es : List Edge),
      (∀ e ∈ es, e.1 < bits.length ∧ e.2.1 < bits.length) →
      ∀ acc, maxcut_go bits acc es =
        some (acc + (es.map (fun e =>
          if bits.getD e.1 0 ≠ bits.getD e.2.1 0 then e.2.2 else 0)).sum) := by
  intro es
  induction es with
  | nil => intro _ acc; simp [maxcut_go]
  | cons e t ih =>
    intro h acc
    obtain ⟨hi, hj⟩ := h e (List.mem_cons_self e t)
    rcases e with ⟨i, j, u⟩
    have hbi : bits[i]? = some (bits.getD i 0) := by
      rw [List.getElem?_eq_getElem hi, List.getD_eq_getElem bits 0 hi]
    have hbj : bits[j]? = some (bits.getD j 0) := by
      rw [List.getElem?_eq_getElem hj, List.getD_eq_getElem bits 0 hj]
    have ht := ih (fun e he => h e (List.mem_cons_of_mem _ he))
    simp only [maxcut_go, hbi, hbj, List.map_cons, List.sum_cons]
    by_cases hne : bits.getD i 0 ≠ bits.getD j 0
    · simp only [if_pos hne, ht]
      congr 1
      ring
    · simp only [if_neg hne, ht, zero_add]

theorem mem_make_ring_edges {n : Nat} {w : ℚ} {e : Edge}
    (he : e ∈ make_ring_edges n w) : ∃ i, i < n ∧ e = (i, (i + 1) % n, w) := by
  simp only [make_ring_edges, List.mem_map, List.mem_range] at he
  obtain ⟨i, hi, rfl⟩ := he
  exact ⟨i, hi, rfl⟩

theorem ring_edges_bounded (bits : List Int) (n : Nat) (w : ℚ) (hlen : bits.length = n) :
    ∀ e ∈ make_ring_edges n w, e.1 < bits.length ∧ e.2.1 < bits.length := by
  intro e he
  obtain ⟨i, hi, rfl⟩ := mem_make_ring_edges he
  have hmod : (i + 1) % n < n := Nat.mod_lt _ (by omega)
  exact ⟨by simpa [hlen] using hi, by simpa [hlen] using hmod⟩

theorem maxcut_score_ring (bits : List Int) (n : Nat) (w : ℚ) (hlen : bits.length = n) :
    maxcut_score bits (make_ring_edges n w) =
      some (((List.range n).map (fun i =>
        if bits.getD i 0 ≠ bits.getD ((i + 1) % n) 0 then w else 0)).sum) := by
  rw [maxcut_score, maxcut_go_eq bits _ (ring_edges_bounded bits n w hlen) 0, zero_add]
  rw [make_ring_edges, List.map_map]
  have hfun : ((fun e : Edge => if bits.getD e.1 0 ≠ bits.getD e.2.1 0 then e.2.2 else 0) ∘
      fun i : Nat => ((i : Nat), (i + 1) % n, w)) =
      (fun i : Nat => if bits.getD i 0 ≠ bits.getD ((i + 1) % n) 0 then w else 0) := by
    funext i
    rfl
  rw [hfun]

theorem sum_le_length (l : List ℚ) (h : ∀ x ∈ l, x ≤ 1) : l.sum ≤ l.length := by
  have := List.sum_le_card_nsmul l 1 h
  simpa using this

theorem sum_all_one (l : List ℚ) (h : ∀ x ∈ l, x = 1) : l.sum = l.length := by
  rw [List.eq_replicate_of_mem h, List.sum_replicate, List.length_replicate]
  simp

theorem all_one_of_sum_eq (l : List ℚ) (h1 : ∀ x ∈ l, x ≤ 1)
    (h2 : l.sum = l.length) : ∀ x ∈ l, x = 1 := by
  induction l with
  | nil => intro x hx; simp at hx
  | cons a t ih =>
    have hts : t.sum ≤ t.length :=
      sum_le_length t (fun x hx => h1 x (List.mem_cons_of_mem _ hx))
    have ha : a ≤ 1 := h1 a (List.mem_cons_self a t)
    simp only [List.sum_cons, List.length_cons, Nat.cast_add, Nat.cast_one] at h2
    have ha1 : a = 1 := by linarith
    have hts' : t.sum = t.length := by linarith
    intro x hx
    rcases List.mem_cons.mp hx with rfl | hx
    · exact ha1
    · exact ih (fun y hy => h1 y (List.mem_cons_of_mem _ hy)) hts' x hx

theorem maxcut_go_nonneg (bits : List Int) :
    ∀ (es : List Edge), (∀ e ∈ es, 0 ≤ e.2.2) →
      ∀ acc, 0 ≤ acc → ∀ s, maxcut_go bits acc es = some s → 0 ≤ s := by
  intro es
  induction es with
  | nil =>
    intro _ acc hacc s hs
    simp [maxcut_go] at hs
    exact hs ▸ hacc
  | cons e t ih =>
    intro h acc hacc s hs
    rcases e with ⟨i, j, u⟩
    rcases hbi : bits[i]? with _ | bi
    · simp [maxcut_go, hbi] at hs
    · rcases hbj : bits[j]? with _ | bj
      · simp [maxcut_go, hbj, hbi] at hs
      · simp only [maxcut_go, hbi, hbj] at hs
        have hu : 0 ≤ u := h (i, j, u) (List.mem_cons_self _ t)
        refine ih (fun e he => h e (List.mem_cons_of_mem _ he)) _ ?_ s hs
        by_cases hne : bi ≠ bj
        · simp only [if_pos hne]; linarith
        · simp only [if_neg hne]; exact hacc


/-! ### Eviction lemmas -/

theorem dictKeys_length {κ α : Type} (d : List (κ × α)) :
    (dictKeys d).length = d.length := by
  simp [dictKeys]

theorem mem_dictKeys_of_lookup {κ α : Type} [BEq κ] [LawfulBEq κ]
    (d : List (κ × α)) (k : κ) (h : (dictLookup d k).isSome = true) :
    k ∈ dictKeys d := by
  obtain ⟨v, hv⟩ := Option.isSome_iff_exists.mp h
  unfold dictLookup at hv
  rcases hfind : d.find? (fun p => p.1 == k) with _ | p
  · rw [hfind] at hv; simp at hv
  · have hp := List.find?_some hfind
    have hmem := List.mem_of_find?_eq_some hfind
    have : p.1 = k := by simpa using hp
    exact this ▸ List.mem_map.mpr ⟨p, hmem, rfl⟩

theorem filter_not_length {α : Type} (p : α → Bool) :
    ∀ l : List α, (l.filter (fun a => !(p a))).length = l.length - (l.filter p).length := by
  intro l
  induction l with
  | nil => simp
  | cons a t ih =>
    have hle := List.length_filter_le p t
    by_cases h : p a
    · simp only [List.filter_cons, h, Bool.not_true, Bool.false_eq_true, if_false,
        if_true, List.length_cons, ih]
      omega
    · have h' : p a = false := by simpa using h
      simp only [List.filter_cons, h', Bool.not_false, Bool.false_eq_true, if_false,
        if_true, List.length_cons, ih]
      omega

theorem nodup_same_mem_length {α : Type} [DecidableEq α] (l₁ l₂ : List α)
    (h1 : l₁.Nodup) (h2 : l₂.Nodup) (hm : ∀ x, x ∈ l₁ ↔ x ∈ l₂) :
    l₁.length = l₂.length := by
  rw [← List.toFinset_card_of_nodup h1, ← List.toFinset_card_of_nodup h2]
  congr 1
  ext x
  simp only [List.mem_toFinset]
  exact hm x

theorem evictOld_length (buf : Buffer) (hnd : (dictKeys buf).Nodup)
    (hlen : 50 < buf.length) : (evictOld buf).length = 20 := by
  unfold evictOld
  set s := List.insertionSort (fun a b : Int => a ≤ b) (dictKeys buf) with hs
  set olds := s.take (buf.length - 20) with holds
  have hperm : s.Perm (dictKeys buf) := List.perm_insertionSort _ _
  have hslen : s.length = buf.length := by
    rw [hperm.length_eq, dictKeys_length]
  have holdslen : olds.length = buf.length - 20 := by
    rw [holds, List.length_take, hslen]
    omega
  have holdsnodup : olds.Nodup :=
    ((List.take_sublist _ _).nodup (hperm.nodup_iff.mpr hnd))
  have holdssub : ∀ x ∈ olds, x ∈ dictKeys buf := by
    intro x hx
    exact hperm.mem_iff.mp (List.take_subset _ _ hx)
  have hcount : (buf.filter (fun p => olds.contains p.1)).length = olds.length := by
    have h1 : (buf.filter (fun p => olds.contains p.1)).length
        = ((dictKeys buf).filter (fun k => olds.contains k)).length := by
      rw [← List.countP_eq_length_filter, ← List.countP_eq_length_filter]
      unfold dictKeys
      rw [List.countP_map]
      rfl
    rw [h1]
    apply nodup_same_mem_length _ _ (hnd.filter _) holdsnodup
    intro x
    simp only [List.mem_filter, List.elem_iff]
    constructor
    · rintro ⟨_, hx⟩; exact hx
    · intro hx; exact ⟨holdssub x hx, hx⟩
  rw [filter_not_length (fun p => olds.contains p.1) buf, hcount, holdslen]
  omega

theorem sorted_take_drop (l : List Int)
    (hs : List.Pairwise (fun a b : Int => a ≤ b) l) (k : Nat) :
    ∀ x ∈ l.take k, ∀ y ∈ l.drop k, x ≤ y := by
  have h : List.Pairwise (fun a b : Int => a ≤ b) (l.take k ++ l.drop k) := by
    rw [List.take_append_drop]; exact hs
  exact (List.pairwise_append.mp h).2.2

theorem not_mem_olds_of_kept (buf : Buffer) (t : Int)
    (hkept : t ∈ dictKeys (evictOld buf)) :
    t ∉ (List.insertionSort (fun a b : Int => a ≤ b) (dictKeys buf)).take
      (buf.length - 20) := by
  intro hin
  obtain ⟨p, hp, hpt⟩ := List.mem_map.mp hkept
  simp only [evictOld] at hp
  have h2 := (List.mem_filter.mp hp).2
  rw [hpt] at h2
  have hc : ((List.insertionSort (fun a b : Int => a ≤ b) (dictKeys buf)).take
      (buf.length - 20)).contains t = true := List.elem_iff.mpr hin
  rw [hc] at h2
  simp at h2

theorem mem_evictOld_of_not_olds (buf : Buffer) (t : Int)
    (hmem : t ∈ dictKeys buf)
    (hnot : t ∉ (List.insertionSort (fun a b : Int => a ≤ b) (dictKeys buf)).take
      (buf.length - 20)) :
    t ∈ dictKeys (evictOld buf) := by
  obtain ⟨p, hp, hpt⟩ := List.mem_map.mp hmem
  refine List.mem_map.mpr ⟨p, ?_, hpt⟩
  simp only [evictOld]
  refine List.mem_filter.mpr ⟨hp, ?_⟩
  rw [hpt]
  cases hb : ((List.insertionSort (fun a b : Int => a ≤ b) (dictKeys buf)).take
      (buf.length - 20)).contains t
  · rfl
  · exact absurd (List.elem_iff.mp hb) hnot

theorem evictOld_keys_subset (buf : Buffer) (t : Int)
    (h : t ∈ dictKeys (evictOld buf)) : t ∈ dictKeys buf := by
  obtain ⟨p, hp, hpt⟩ := List.mem_map.mp h
  simp only [evictOld] at hp
  exact List.mem_map.mpr ⟨p, (List.mem_filter.mp hp).1, hpt⟩

theorem evictOld_mono (buf : Buffer) (t1 t2 : Int) (hlt : t1 < t2)
    (hm2 : t2 ∈ dictKeys buf)
    (hkept : t1 ∈ dictKeys (evictOld buf)) : t2 ∈ dictKeys (evictOld buf) := by
  have hperm := List.perm_insertionSort (fun a b : Int => a ≤ b) (dictKeys buf)
  have hsorted := List.sorted_insertionSort (fun a b : Int => a ≤ b) (dictKeys buf)
  have ht1not := not_mem_olds_of_kept buf t1 hkept
  have hm1 : t1 ∈ dictKeys buf := evictOld_keys_subset buf t1 hkept
  apply mem_evictOld_of_not_olds buf t2 hm2
  intro hin
  have ht1s : t1 ∈ List.insertionSort (fun a b : Int => a ≤ b) (dictKeys buf) :=
    hperm.mem_iff.mpr hm1
  have ht1' : t1 ∈ (List.insertionSort (fun a b : Int => a ≤ b) (dictKeys buf)).take
      (buf.length - 20) ++ (List.insertionSort (fun a b : Int => a ≤ b)
        (dictKeys buf)).drop (buf.length - 20) := by
    rw [List.take_append_drop]
    exact ht1s
  rcases List.mem_append.mp ht1' with h | h
  · exact absurd h ht1not
  · have := sorted_take_drop _ hsorted (buf.length - 20) t2 hin t1 h
    omega

theorem evictOld_order (buf : Buffer) (t1 t2 : Int) (h1 : t1 < 0) (h2 : 0 ≤ t2)
    (hm1 : t1 ∈ dictKeys buf) (hm2 : t2 ∈ dictKeys buf)
    (hkept : t1 ∈ dictKeys (evictOld buf)) : t2 ∈ dictKeys (evictOld buf) := by
  have hperm := List.perm_insertionSort (fun a b : Int => a ≤ b) (dictKeys buf)
  have hsorted := List.sorted_insertionSort (fun a b : Int => a ≤ b) (dictKeys buf)
  have ht1not := not_mem_olds_of_kept buf t1 hkept
  apply mem_evictOld_of_not_olds buf t2 hm2
  intro hin
  have ht1s : t1 ∈ List.insertionSort (fun a b : Int => a ≤ b) (dictKeys buf) :=
    hperm.mem_iff.mpr hm1
  have ht1' : t1 ∈ (List.insertionSort (fun a b : Int => a ≤ b) (dictKeys buf)).take
      (buf.length - 20) ++ (List.insertionSort (fun a b : Int => a ≤ b)
        (dictKeys buf)).drop (buf.length - 20) := by
    rw [List.take_append_drop]
    exact ht1s
  rcases List.mem_append.mp ht1' with h | h
  · exact absurd h ht1not
  · have := sorted_take_drop _ hsorted (buf.length - 20) t2 hin t1 h
    omega


/-! ### Bitmask arithmetic -/

theorem emod_high_bits (bm : Int) (i w : Nat) (hiw : i < w) :
    Int.fdiv (bm % 2 ^ w) (2 ^ i) % 2 = Int.fdiv bm (2 ^ i) % 2 := by
  have h2i : (0 : Int) ≤ 2 ^ i := by positivity
  have hne : (2 : Int) ^ i ≠ 0 := by positivity
  rw [Int.fdiv_eq_ediv _ h2i, Int.fdiv_eq_ediv _ h2i]
  have key : ∀ a q : Int, (a + 2 ^ w * q) / 2 ^ i % 2 = a / 2 ^ i % 2 := by
    intro a q
    have hw : (2 : Int) ^ w * q = 2 ^ i * (2 ^ (w - i) * q) := by
      rw [← mul_assoc, ← pow_add]
      congr 2
      omega
    rw [hw, Int.add_mul_ediv_left _ _ hne]
    have hsplit : (2 : Int) ^ (w - i) * q = 2 * (2 ^ (w - i - 1) * q) := by
      rw [← mul_assoc]
      congr 1
      rw [← pow_succ']
      congr 1
      omega
    rw [hsplit, Int.add_mul_emod_self_left]
  have hbm : bm = bm % 2 ^ w + 2 ^ w * (bm / 2 ^ w) := by
    have := Int.ediv_add_emod bm (2 ^ w)
    linarith
  conv_rhs => rw [hbm]
  rw [key]

theorem bits_from_bmask_low_bits (bm : Int) (w : Nat) :
    bits_from_bmask (bm % 2 ^ w) w = bits_from_bmask bm w := by
  unfold bits_from_bmask
  apply List.map_congr_left
  intro i hi
  exact emod_high_bits bm i w (List.mem_range.mp hi)

theorem bits_from_bmask_getD (bm : Int) (w i : Nat) (hi : i < w) :
    (bits_from_bmask bm w).getD i 0 = Int.fdiv bm (2 ^ i) % 2 := by
  have hlen : i < (bits_from_bmask bm w).length := by
    rw [bits_from_bmask_length]
    omega
  rw [List.getD_eq_getElem _ _ hlen]
  simp [bits_from_bmask]

/-! ### Alternating assignments -/

theorem altVec_length (b : Int) (n : Nat) : (altVec b n).length = n := by
  simp [altVec]

theorem altVec_getD (b : Int) (n i : Nat) (hi : i < n) :
    (altVec b n).getD i 0 = if i % 2 = 0 then b else 1 - b := by
  have hlen : i < (altVec b n).length := by
    rw [altVec_length]
    omega
  rw [List.getD_eq_getElem _ _ hlen]
  simp [altVec]

theorem getD_mem_of_lt (bits : List Int) (i : Nat) (hi : i < bits.length) :
    bits.getD i 0 ∈ bits := by
  rw [List.getD_eq_getElem _ _ hi]
  exact List.getElem_mem hi

theorem alt_pattern (bits : List Int) (n : Nat) (hlen : bits.length = n)
    (hb : ∀ x ∈ bits, x = 0 ∨ x = 1)
    (hcut : ∀ i, i + 1 < n → bits.getD i 0 ≠ bits.getD (i + 1) 0) :
    ∀ i, i < n →
      bits.getD i 0 = if i % 2 = 0 then bits.getD 0 0 else 1 - bits.getD 0 0 := by
  intro i
  induction i with
  | zero => intro _; simp
  | succ i ih =>
    intro hi1
    have hi : i < n := by omega
    have hprev := ih hi
    have hmem : bits.getD i 0 ∈ bits := getD_mem_of_lt bits i (by omega)
    have hmem1 : bits.getD (i + 1) 0 ∈ bits := getD_mem_of_lt bits (i + 1) (by omega)
    have hne := hcut i (by omega)
    have hstep : bits.getD (i + 1) 0 = 1 - bits.getD i 0 := by
      rcases hb _ hmem with h0 | h0 <;> rcases hb _ hmem1 with h1 | h1 <;>
        rw [h0, h1] <;> rw [h0, h1] at hne <;> omega
    rw [hstep, hprev]
    by_cases hp : i % 2 = 0
    · have hp1 : (i + 1) % 2 ≠ 0 := by omega
      simp [hp, hp1]
    · have hp1 : (i + 1) % 2 = 0 := by omega
      simp [hp, hp1]

theorem alt_of_all_cut (bits : List Int) (n : Nat) (hlen : bits.length = n)
    (hn : 0 < n) (hb : ∀ x ∈ bits, x = 0 ∨ x = 1)
    (hcut : ∀ i, i + 1 < n → bits.getD i 0 ≠ bits.getD (i + 1) 0) :
    ∃ b, (b = 0 ∨ b = 1) ∧ bits = altVec b n := by
  refine ⟨bits.getD 0 0, hb _ (getD_mem_of_lt bits 0 (by omega)), ?_⟩
  apply List.ext_getElem (by rw [altVec_length, hlen])
  intro i h1 h2
  have hi : i < n := by omega
  have := alt_pattern bits n hlen hb hcut i hi
  rw [← List.getD_eq_getElem bits 0 h1, ← List.getD_eq_getElem (altVec _ n) 0 h2,
    altVec_getD _ _ _ hi, this]

/-! ### Best-so-far fold -/

theorem le_foldl_max (l : List (Int × ℚ × List Int)) :
    ∀ a : ℚ, a ≤ l.foldl (fun p x => max p x.2.1) a := by
  induction l with
  | nil => intro a; simp
  | cons x t ih =>
    intro a
    calc a ≤ max a x.2.1 := le_max_left _ _
    _ ≤ t.foldl (fun p x => max p x.2.1) (max a x.2.1) := ih _

theorem mem_le_foldl_max (l : List (Int × ℚ × List Int)) :
    ∀ (a : ℚ) (x), x ∈ l → x.2.1 ≤ l.foldl (fun p x => max p x.2.1) a := by
  induction l with
  | nil => intro a x hx; simp at hx
  | cons y t ih =>
    intro a x hx
    rcases List.mem_cons.mp hx with rfl | hx
    · calc x.2.1 ≤ max a x.2.1 := le_max_right _ _
      _ ≤ t.foldl (fun p x => max p x.2.1) (max a x.2.1) := le_foldl_max t _
    · exact ih _ x hx

theorem maxScoreOf_append (l : List (Int × ℚ × List Int)) (x : Int × ℚ × List Int) :
    maxScoreOf (l ++ [x]) = max (maxScoreOf l) x.2.1 := by
  unfold maxScoreOf
  rw [List.foldl_append]
  rfl

theorem foldBest_append (l : List (Int × ℚ × List Int)) (x : Int × ℚ × List Int) :
    foldBest (l ++ [x]) = updateBest (foldBest l) x := by
  unfold foldBest
  rw [List.foldl_append]
  rfl

/-! ### Round completion -/

theorem completeRound_length (r : Round) (n : Nat) (hc : completeRound r n) :
    n ≤ r.length := by
  have hsub : ∀ x ∈ (List.range n).map (fun s => Int.ofNat s), x ∈ dictKeys r := by
    intro x hx
    obtain ⟨s, hs, rfl⟩ := List.mem_map.mp hx
    exact mem_dictKeys_of_lookup r _ (hc s (List.mem_range.mp hs))
  have hnodup : ((List.range n).map (fun s => Int.ofNat s)).Nodup :=
    (List.nodup_range n).map (fun a b h => Int.ofNat_inj.mp h)
  have hcard1 : ((List.range n).map (fun s => Int.ofNat s)).toFinset.card = n := by
    rw [List.toFinset_card_of_nodup hnodup, List.length_map, List.length_range]
  have hcard2 : ((List.range n).map (fun s => Int.ofNat s)).toFinset.card
      ≤ (dictKeys r).toFinset.card := by
    apply Finset.card_le_card
    intro x hx
    exact List.mem_toFinset.mpr (hsub x (List.mem_toFinset.mp hx))
  calc n = ((List.range n).map (fun s => Int.ofNat s)).toFinset.card := hcard1.symm
  _ ≤ (dictKeys r).toFinset.card := hcard2
  _ ≤ (dictKeys r).length := List.toFinset_card_le _
  _ = r.length := dictKeys_length r


/-! ### Ring score characterization -/

theorem ring_terms_le_one (bits : List Int) (n : Nat) :
    ∀ x ∈ (List.range n).map (fun i =>
      if bits.getD i 0 ≠ bits.getD ((i + 1) % n) 0 then (1 : ℚ) else 0), x ≤ 1 := by
  intro x hx
  obtain ⟨i, _, rfl⟩ := List.mem_map.mp hx
  by_cases h : bits.getD i 0 ≠ bits.getD ((i + 1) % n) 0
  · rw [if_pos h]
  · rw [if_neg h]
    norm_num

theorem maxcut_ring_le (bits : List Int) (n : Nat) (hlen : bits.length = n) (s : ℚ)
    (hs : maxcut_score bits (make_ring_edges n 1) = some s) : s ≤ n := by
  rw [maxcut_score_ring bits n 1 hlen] at hs
  have hsum := (Option.some.inj hs).symm
  subst hsum
  calc ((List.range n).map (fun i =>
      if bits.getD i 0 ≠ bits.getD ((i + 1) % n) 0 then (1 : ℚ) else 0)).sum
      ≤ (((List.range n).map (fun i =>
        if bits.getD i 0 ≠ bits.getD ((i + 1) % n) 0 then (1 : ℚ) else 0)).length : ℚ) :=
        sum_le_length _ (ring_terms_le_one bits n)
  _ = n := by simp

theorem ring_cut_iff (bits : List Int) (n : Nat) (hlen : bits.length = n)
    (hev : n % 2 = 0) (h1 : 1 ≤ n) (hb : ∀ x ∈ bits, x = 0 ∨ x = 1) :
    maxcut_score bits (make_ring_edges n 1) = some (n : ℚ) ↔
      ∃ b, (b = 0 ∨ b = 1) ∧ bits = altVec b n := by
  rw [maxcut_score_ring bits n 1 hlen]
  constructor
  · intro hs
    have hsum : ((List.range n).map (fun i =>
        if bits.getD i 0 ≠ bits.getD ((i + 1) % n) 0 then (1 : ℚ) else 0)).sum
        = (n : ℚ) := Option.some.inj hs
    have hall := all_one_of_sum_eq _ (ring_terms_le_one bits n) (by rw [hsum]; simp)
    have hcut : ∀ i, i + 1 < n → bits.getD i 0 ≠ bits.getD (i + 1) 0 := by
      intro i hi
      have hmem : (if bits.getD i 0 ≠ bits.getD ((i + 1) % n) 0 then (1 : ℚ) else 0)
          ∈ (List.range n).map (fun i =>
            if bits.getD i 0 ≠ bits.getD ((i + 1) % n) 0 then (1 : ℚ) else 0) :=
        List.mem_map.mpr ⟨i, List.mem_range.mpr (by omega), rfl⟩
      have hone := hall _ hmem
      rw [Nat.mod_eq_of_lt (by omega)] at hone
      by_contra hc
      rw [if_neg (not_not_intro hc)] at hone
      norm_num at hone
    exact alt_of_all_cut bits n hlen (by omega) hb hcut
  · rintro ⟨b, hb01, rfl⟩
    have hn2 : 2 ≤ n := by omega
    have hcutall : ∀ i, i < n →
        (altVec b n).getD i 0 ≠ (altVec b n).getD ((i + 1) % n) 0 := by
      intro i hi
      by_cases hlast : i + 1 < n
      · rw [Nat.mod_eq_of_lt hlast, altVec_getD b n i hi, altVec_getD b n (i + 1) hlast]
        rcases Nat.even_or_odd i with he | ho
        · have hp : i % 2 = 0 := Nat.even_iff.mp he
          have hp1 : (i + 1) % 2 ≠ 0 := by omega
          simp only [hp, if_true, hp1, if_false]
          rcases hb01 with rfl | rfl <;> norm_num
        · have hp : i % 2 ≠ 0 := by
            have := Nat.odd_iff.mp ho
            omega
          have hp1 : (i + 1) % 2 = 0 := by
            have := Nat.odd_iff.mp ho
            omega
          simp only [hp, if_false, hp1, if_true]
          rcases hb01 with rfl | rfl <;> norm_num
      · have hieq : i = n - 1 := by omega
        have hmod : (i + 1) % n = 0 := by
          have : i + 1 = n := by omega
          rw [this, Nat.mod_self]
        rw [hmod, altVec_getD b n i hi, altVec_getD b n 0 (by omega)]
        have hp : i % 2 ≠ 0 := by omega
        simp only [hp, if_false, Nat.zero_mod, if_true]
        rcases hb01 with rfl | rfl <;> norm_num
    have hall : ∀ x ∈ (List.range n).map (fun i =>
        if (altVec b n).getD i 0 ≠ (altVec b n).getD ((i + 1) % n) 0 then (1 : ℚ) else 0),
        x = 1 := by
      intro x hx
      obtain ⟨i, hi, rfl⟩ := List.mem_map.mp hx
      rw [if_pos (hcutall i (List.mem_range.mp hi))]
    rw [sum_all_one _ hall]
    simp

theorem maxcut_ring_nonneg (bits : List Int) (n : Nat) (s : ℚ)
    (hs : maxcut_score bits (make_ring_edges n 1) = some s) : 0 ≤ s := by
  apply maxcut_go_nonneg bits (make_ring_edges n 1) _ 0 le_rfl s hs
  intro e he
  obtain ⟨i, _, rfl⟩ := mem_make_ring_edges he
  norm_num


theorem foldBest_firstMax (l : List (Int × ℚ × List Int)) (hne : l ≠ [])
    (hnn : ∀ x ∈ l, 0 ≤ x.2.1) :
    ∃ m, firstMaxSample l = some m ∧ foldBest l = (m.2.1, some m.2.2, some m.1) := by
  induction l using List.reverseRecOn with
  | nil => exact absurd rfl hne
  | append_singleton l x ih =>
    have hx0 : 0 ≤ x.2.1 := hnn x (List.mem_append_right l (List.mem_singleton.mpr rfl))
    have hinit : -(10 ^ 18 : ℚ) < x.2.1 := by
      have : -(10 ^ 18 : ℚ) < 0 := by norm_num
      linarith
    rcases eq_or_ne l [] with rfl | hl
    · refine ⟨x, ?_, ?_⟩
      · have hmax : maxScoreOf ([] ++ [x]) = x.2.1 := by
          unfold maxScoreOf
          simp only [List.nil_append, List.foldl_cons, List.foldl_nil]
          exact max_eq_right (le_of_lt hinit)
        unfold firstMaxSample
        rw [hmax]
        simp [List.find?]
      · unfold foldBest updateBest
        simp only [List.nil_append, List.foldl_cons, List.foldl_nil]
        rw [if_pos hinit]
    · obtain ⟨m, hfind, hfold⟩ := ih hl (fun y hy => hnn y (List.mem_append_left _ hy))
      have hfind' : l.find? (fun y => decide (y.2.1 = maxScoreOf l)) = some m := hfind
      have hp := List.find?_some hfind'
      have hm_val : m.2.1 = maxScoreOf l := by simpa using hp
      have hM := maxScoreOf_append l x
      by_cases hlt : maxScoreOf l < x.2.1
      · -- the new sample strictly improves: it becomes the best
        have hmax : maxScoreOf (l ++ [x]) = x.2.1 := by
          rw [hM]
          exact max_eq_right (le_of_lt hlt)
        refine ⟨x, ?_, ?_⟩
        · unfold firstMaxSample
          rw [hmax, List.find?_append]
          have hnone : l.find? (fun y => decide (y.2.1 = x.2.1)) = none := by
            rw [List.find?_eq_none]
            intro y hy
            have hle : y.2.1 ≤ maxScoreOf l := mem_le_foldl_max l _ y hy
            simp only [decide_eq_true_eq]
            intro heq
            rw [heq] at hle
            exact absurd (lt_of_lt_of_le hlt hle) (lt_irrefl _)
          rw [hnone, Option.none_or]
          simp [List.find?]
        · rw [foldBest_append, hfold]
          unfold updateBest
          rw [if_pos (by rw [hm_val]; exact hlt)]
      · -- no strict improvement: the old first-max stays
        have hmax : maxScoreOf (l ++ [x]) = maxScoreOf l := by
          rw [hM]
          exact max_eq_left (not_lt.mp hlt)
        refine ⟨m, ?_, ?_⟩
        · unfold firstMaxSample
          rw [hmax, List.find?_append]
          rw [hfind']
          rfl
        · rw [foldBest_append, hfold]
          unfold updateBest
          rw [if_neg (by rw [hm_val]; exact hlt)]


/-! ### Ingestion structure lemmas -/

theorem ingestData_incomplete (cfg : Cfg) (st : St) (d : DataMsg)
    (hlt : (roundAfter st d).length < cfg.numSlaves) :
    ingestData cfg st d = some { st with tick_buffer := bufAfter st d } := by
  unfold ingestData
  rw [if_neg (by omega)]

theorem cleanupStep_all_samples (st1 : St) :
    (cleanupStep st1).all_samples = st1.all_samples := by
  unfold cleanupStep
  split <;> rfl

theorem scoreStep_buffer (cfg : Cfg) (st : St) (d : DataMsg) (st1 : St)
    (h : scoreStep cfg st d = some st1) : st1.tick_buffer = bufAfter st d := by
  simp only [scoreStep] at h
  split at h
  · rcases hq : maxcut_score
      (buildVec (roundAfter st d) cfg.numSlaves cfg.bitsPerSlave).flatten cfg.edges
      with _ | q
    · rw [hq] at h
      exact absurd h (by simp)
    · rw [hq] at h
      rw [← Option.some.inj h]
  · rw [← Option.some.inj h]

theorem scoreStep_emits_iff (cfg : Cfg) (st : St) (d : DataMsg) (st1 : St)
    (h : scoreStep cfg st d = some st1) :
    ((∃ e, st1.all_samples = st.all_samples ++ [e]) ↔
      (buildVec (roundAfter st d) cfg.numSlaves cfg.bitsPerSlave).length
        = cfg.numSlaves) := by
  simp only [scoreStep] at h
  split at h
  case isTrue hfull =>
    rcases hq : maxcut_score
        (buildVec (roundAfter st d) cfg.numSlaves cfg.bitsPerSlave).flatten cfg.edges
        with _ | q
    · rw [hq] at h
      exact absurd h (by simp)
    · rw [hq] at h
      have hst1 := (Option.some.inj h).symm
      constructor
      · intro _; exact hfull
      · intro _
        exact ⟨_, by rw [hst1]⟩
  case isFalse hfull =>
    have hst1 := (Option.some.inj h).symm
    constructor
    · rintro ⟨e, he⟩
      rw [hst1] at he
      simp only [] at he
      have := congrArg List.length he
      simp at this
    · intro hc
      exact absurd hc hfull

theorem buildVec_complete_iff (r : Round) (n w : Nat) :
    (buildVec r n w).length = n ↔ completeRound r n := by
  constructor
  · intro h s hs
    have := buildVecFrom_full r w n 0 h s hs
    simpa using this
  · intro hc
    rw [buildVec, buildVecFrom_of_complete r w n 0 (fun k hk => by simpa using hc k hk)]
    simp

theorem ingestData_emits_iff (cfg : Cfg) (st : St) (d : DataMsg) (st' : St)
    (h : ingestData cfg st d = some st') :
    ((∃ e, st'.all_samples = st.all_samples ++ [e]) ↔
      completeRound (roundAfter st d) cfg.numSlaves) := by
  unfold ingestData at h
  split at h
  case isTrue hn =>
    rcases hs : scoreStep cfg st d with _ | st1
    · rw [hs] at h
      simp at h
    · rw [hs] at h
      simp only [Option.map] at h
      have hst : st' = cleanupStep st1 := (Option.some.inj h).symm
      have hsamp : st'.all_samples = st1.all_samples := by
        rw [hst]
        exact cleanupStep_all_samples st1
      rw [hsamp, scoreStep_emits_iff cfg st d st1 hs]
      exact buildVec_complete_iff _ _ _
  case isFalse hn =>
    have hst : st' = { st with tick_buffer := bufAfter st d } := (Option.some.inj h).symm
    constructor
    · rintro ⟨e, he⟩
      rw [hst] at he
      simp only [] at he
      have := congrArg List.length he
      simp at this
    · intro hc
      exact absurd (completeRound_length _ _ hc) (by omega)

theorem ingestData_buffer_small (cfg : Cfg) (st : St) (d : DataMsg) (st' : St)
    (h : ingestData cfg st d = some st') (hlen : st.tick_buffer.length < 50) :
    st'.tick_buffer = bufAfter st d := by
  have hb1 : (bufAfter st d).length ≤ st.tick_buffer.length + 1 := by
    unfold bufAfter
    rw [length_dictSet]
    split <;> omega
  unfold ingestData at h
  split at h
  · rcases hs : scoreStep cfg st d with _ | st1
    · rw [hs] at h
      simp at h
    · rw [hs] at h
      simp only [Option.map] at h
      have hst : st' = cleanupStep st1 := (Option.some.inj h).symm
      have hbuf : st1.tick_buffer = bufAfter st d := scoreStep_buffer cfg st d st1 hs
      rw [hst]
      unfold cleanupStep
      rw [if_neg (by rw [hbuf]; omega)]
      exact hbuf
  · have hst : st' = { st with tick_buffer := bufAfter st d } := (Option.some.inj h).symm
    rw [hst]

theorem scoreStep_some (cfg : Cfg) (st : St) (d : DataMsg)
    (hedges : cfg.edges = build_edges (cfg.numSlaves * cfg.bitsPerSlave)) :
    ∃ st1, scoreStep cfg st d = some st1 := by
  simp only [scoreStep]
  split
  case isTrue hfull =>
    have hlen : (buildVec (roundAfter st d) cfg.numSlaves cfg.bitsPerSlave).flatten.length
        = cfg.numSlaves * cfg.bitsPerSlave := by
      rw [flatten_length_of_chunks cfg.bitsPerSlave
        (buildVec (roundAfter st d) cfg.numSlaves cfg.bitsPerSlave)
        (fun c hc => buildVecFrom_chunk_length _ _ _ _ c hc), hfull]
    rw [hedges]
    unfold build_edges RING_WEIGHT
    rw [maxcut_score_ring _ _ 1 hlen]
    exact ⟨_, rfl⟩
  case isFalse => exact ⟨_, rfl⟩

theorem ingestData_some (cfg : Cfg) (st : St) (d : DataMsg)
    (hedges : cfg.edges = build_edges (cfg.numSlaves * cfg.bitsPerSlave)) :
    ∃ st', ingestData cfg st d = some st' := by
  unfold ingestData
  split
  · obtain ⟨st1, hst1⟩ := scoreStep_some cfg st d hedges
    rw [hst1]
    exact ⟨_, rfl⟩
  · exact ⟨_, rfl⟩

theorem roundAfter_idem (st : St) (d : DataMsg) :
    roundAfter { st with tick_buffer := bufAfter st d } d = roundAfter st d := by
  conv_lhs => unfold roundAfter
  simp only []
  unfold bufAfter
  rw [dictLookup_dictSet_self st.tick_buffer d.tick (roundAfter st d), Option.getD_some]
  exact dictSet_dictSet_same ((dictLookup st.tick_buffer d.tick).getD []) d.sidx
    ⟨d.bmask, d.loss, d.noise, d.seed⟩

theorem ingestData_idem (cfg : Cfg) (st : St) (d : DataMsg)
    (hlt : (roundAfter st d).length < cfg.numSlaves) :
    ingestData cfg { st with tick_buffer := bufAfter st d } d
      = some { st with tick_buffer := bufAfter st d } := by
  have hb : bufAfter { st with tick_buffer := bufAfter st d } d = bufAfter st d := by
    show dictSet (bufAfter st d) d.tick
      (roundAfter { st with tick_buffer := bufAfter st d } d) = bufAfter st d
    rw [roundAfter_idem]
    conv_lhs => rw [show bufAfter st d = dictSet st.tick_buffer d.tick (roundAfter st d)
      from rfl]
    exact dictSet_dictSet_same st.tick_buffer d.tick (roundAfter st d)
  rw [ingestData_incomplete _ _ _ (by rw [roundAfter_idem]; exact hlt), hb]


/-! ### Loop and classification lemmas -/

theorem buildVec_dictSet_out (r : Round) (n w : Nat) (k : Int) (v : Sample)
    (hk : k < 0 ∨ (n : Int) ≤ k) :
    buildVec (dictSet r k v) n w = buildVec r n w :=
  buildVecFrom_dictSet_out r w k v n hk n 0 (by omega)

theorem lineStep_some (cfg : Cfg) (st : St) (line : String)
    (hedges : cfg.edges = build_edges (cfg.numSlaves * cfg.bitsPerSlave)) :
    ∃ out, lineStep cfg st line = some out := by
  unfold lineStep
  cases hm : classifyLine line with
  | dataMsg d =>
    obtain ⟨st', hst'⟩ := ingestData_some cfg st d hedges
    refine ⟨(st', Signal.contCheck), ?_⟩
    show (ingestData cfg st d).map (fun st1 => (st1, Signal.contCheck))
      = some (st', Signal.contCheck)
    rw [hst']
    rfl
  | empty => exact ⟨_, rfl⟩
  | batch f => exact ⟨_, rfl⟩
  | doneMsg => exact ⟨_, rfl⟩
  | unparseable => exact ⟨_, rfl⟩
  | info => exact ⟨_, rfl⟩

theorem runLoop_cons (cfg : Cfg) (st : St) (lastRx : ℚ) (tl : TimedLine)
    (rest : List TimedLine) :
    runLoop cfg st lastRx (tl :: rest) =
      (let line := pyStrip tl.raw
       let lastRx1 := if line = "" then lastRx else tl.rxTime
       match lineStep cfg st line with
       | none => (st, lastRx1, Cause.errorCause)
       | some (st1, Signal.stop) => (st1, lastRx1, Cause.doneCause)
       | some (st1, Signal.contSkip) => runLoop cfg st1 lastRx1 rest
       | some (st1, Signal.contCheck) =>
         if READ_TIMEOUT_S < tl.chkTime - lastRx1 then (st1, lastRx1, Cause.timeoutCause)
         else runLoop cfg st1 lastRx1 rest) := rfl

theorem runLoop_rearm (cfg : Cfg) (st : St) (a b : ℚ) (tl : TimedLine)
    (rest : List TimedLine) (h : pyStrip tl.raw ≠ "") :
    runLoop cfg st a (tl :: rest) = runLoop cfg st b (tl :: rest) := by
  rw [runLoop_cons, runLoop_cons]
  simp only [if_neg h]

theorem lineStep_empty (cfg : Cfg) (st : St) :
    lineStep cfg st "" = some (st, Signal.contCheck) := rfl

theorem runLoop_timeout (cfg : Cfg) (st : St) (a : ℚ) (tl : TimedLine)
    (rest : List TimedLine) (hempty : pyStrip tl.raw = "")
    (hlate : READ_TIMEOUT_S < tl.chkTime - a) :
    runLoop cfg st a (tl :: rest) = (st, a, Cause.timeoutCause) := by
  rw [runLoop_cons]
  simp only [hempty, lineStep_empty, eq_self_iff_true, if_true]
  rw [if_pos hlate]

/-! ### Data line classification -/

theorem data_head (line : String) (h : startswith line "O," = true) :
    ∃ rest, line.data = 'O' :: ',' :: rest := by
  unfold startswith at h
  obtain ⟨t, ht⟩ := List.isPrefixOf_iff_prefix.mp h
  exact ⟨t, by simpa using ht.symm⟩

theorem startswith_O_not_batch (line : String) (h : startswith line "O," = true) :
    startswith line "@BATCH" = false := by
  obtain ⟨rest, hdata⟩ := data_head line h
  unfold startswith
  rw [hdata]
  rw [show "@BATCH".data = '@' :: "BATCH".data from rfl]
  have hc : (('@' : Char) == 'O') = false := by decide
  simp [List.isPrefixOf, hc]

theorem startswith_O_not_done (line : String) (h : startswith line "O," = true) :
    startswith line "@DONE" = false := by
  obtain ⟨rest, hdata⟩ := data_head line h
  unfold startswith
  rw [hdata]
  rw [show "@DONE".data = '@' :: "DONE".data from rfl]
  have hc : (('@' : Char) == 'O') = false := by decide
  simp [List.isPrefixOf, hc]

theorem ne_empty_of_O (line : String) (h : startswith line "O," = true) :
    ¬(line = "") := by
  intro he
  rw [he] at h
  exact absurd h (by decide)

theorem parseDataFields_isSome_iff (parts : List String) :
    (∃ d, parseDataFields parts = some d) ↔
      (7 ≤ parts.length ∧ (parseInt (parts.getD 1 "")).isSome = true ∧
       (parseInt (parts.getD 2 "")).isSome = true ∧
       (parseInt (parts.getD 3 "")).isSome = true ∧
       (parseInt (parts.getD 4 "")).isSome = true ∧
       (parseFloat (parts.getD 5 "")).isSome = true ∧
       (parseInt (parts.getD 6 "")).isSome = true) := by
  unfold parseDataFields
  split
  case isTrue h =>
    constructor
    · rintro ⟨d, hd⟩
      simp at hd
    · rintro ⟨hlen, _⟩
      omega
  case isFalse h =>
    have hlen : 7 ≤ parts.length := by omega
    rcases h1 : parseInt (parts.getD 1 "") with _ | v1
    · simp [h1, hlen]
    · rcases h2 : parseInt (parts.getD 2 "") with _ | v2
      · simp [h1, h2, hlen]
      · rcases h3 : parseInt (parts.getD 3 "") with _ | v3
        · simp [h1, h2, h3, hlen]
        · rcases h4 : parseInt (parts.getD 4 "") with _ | v4
          · simp [h1, h2, h3, h4, hlen]
          · rcases h5 : parseFloat (parts.getD 5 "") with _ | v5
            · simp [h1, h2, h3, h4, h5, hlen]
            · rcases h6 : parseInt (parts.getD 6 "") with _ | v6
              · simp [h1, h2, h3, h4, h5, h6, hlen]
              · simp [h1, h2, h3, h4, h5, h6, hlen]

theorem classify_dataMsg_iff (line : String) :
    (∃ d, classifyLine line = Msg.dataMsg d) ↔
      (startswith line "O," = true ∧ 7 ≤ (pySplit line ',').length ∧
       (parseInt ((pySplit line ',').getD 1 "")).isSome = true ∧
       (parseInt ((pySplit line ',').getD 2 "")).isSome = true ∧
       (parseInt ((pySplit line ',').getD 3 "")).isSome = true ∧
       (parseInt ((pySplit line ',').getD 4 "")).isSome = true ∧
       (parseFloat ((pySplit line ',').getD 5 "")).isSome = true ∧
       (parseInt ((pySplit line ',').getD 6 "")).isSome = true) := by
  constructor
  · rintro ⟨d, hd⟩
    unfold classifyLine at hd
    split at hd
    · simp at hd
    · split at hd
      · simp at hd
      · split at hd
        · simp at hd
        · split at hd
          · rename_i hO
            refine ⟨hO, ?_⟩
            rw [← parseDataFields_isSome_iff]
            rcases hp : parseDataFields (pySplit line ',') with _ | d'
            · rw [hp] at hd
              simp at hd
            · exact ⟨d', rfl⟩
          · simp at hd
  · rintro ⟨hO, hrest⟩
    have hne := ne_empty_of_O line hO
    have hb := startswith_O_not_batch line hO
    have hdn := startswith_O_not_done line hO
    obtain ⟨d, hd⟩ := (parseDataFields_isSome_iff (pySplit line ',')).mpr hrest
    refine ⟨d, ?_⟩
    unfold classifyLine
    rw [if_neg hne, if_neg (by rw [hb]; simp), if_neg (by rw [hdn]; simp),
      if_pos hO, hd]

theorem classify_unparseable_state (cfg : Cfg) (st : St) (line : String)
    (h : classifyLine line = Msg.unparseable) :
    lineStep cfg st line = some (st, Signal.contSkip) := by
  unfold lineStep
  rw [h]

/-! ### Claims -/

unseal Rat.add Rat.mul Rat.inv Rat.sub in
/-- C1 counterexample: the line `O,5,9,3,0,0.1,7` with NumWorkers = 4
(workerIndex 9 outside `[0, 4)`) is not rejected: processing it creates
the Round for tick 5 holding an entry at index 9, contradicting "the
message is discarded, no Round is created or mutated". -/
theorem C1_counterexample :
    lineStep defaultCfg initSt "O,5,9,3,0,0.1,7"
      = some ({ initSt with
          tick_buffer := [(5, [(9, ⟨3, 0, 1 / 10, 7⟩)])] }, Signal.contCheck) := by
  decide

/-- C1 (amended): a Data message whose workerIndex is outside
`[0, NumWorkers)` is accepted, not rejected: ingestion succeeds without
raising, the Round for its tick is created or mutated with the sample
stored at the out-of-range index, and the stored entry never contributes
to an assembled vector (the assembly result equals that of the round
before the write); processing of the stream continues. -/
theorem C1_out_of_range_accepted (cfg : Cfg) (st : St) (d : DataMsg)
    (hedges : cfg.edges = build_edges (cfg.numSlaves * cfg.bitsPerSlave))
    (hrange : d.sidx < 0 ∨ (cfg.numSlaves : Int) ≤ d.sidx)
    (hsmall : st.tick_buffer.length < 50) :
    ∃ st', ingestData cfg st d = some st'
      ∧ dictLookup st'.tick_buffer d.tick = some (roundAfter st d)
      ∧ dictLookup (roundAfter st d) d.sidx = some ⟨d.bmask, d.loss, d.noise, d.seed⟩
      ∧ buildVec (roundAfter st d) cfg.numSlaves cfg.bitsPerSlave
          = buildVec ((dictLookup st.tick_buffer d.tick).getD []) cfg.numSlaves
            cfg.bitsPerSlave := by
  obtain ⟨st', hst'⟩ := ingestData_some cfg st d hedges
  refine ⟨st', hst', ?_, ?_, ?_⟩
  · rw [ingestData_buffer_small cfg st d st' hst' hsmall]
    exact dictLookup_dictSet_self st.tick_buffer d.tick (roundAfter st d)
  · exact dictLookup_dictSet_self ((dictLookup st.tick_buffer d.tick).getD []) d.sidx
      ⟨d.bmask, d.loss, d.noise, d.seed⟩
  · exact buildVec_dictSet_out ((dictLookup st.tick_buffer d.tick).getD [])
      cfg.numSlaves cfg.bitsPerSlave d.sidx ⟨d.bmask, d.loss, d.noise, d.seed⟩ hrange

unseal Rat.add Rat.mul Rat.inv Rat.sub in
/-- C1 witness: the amended statement at the message parsed from
`O,5,9,3,0,0.1,7` with the default NumWorkers = 4 configuration. -/
theorem C1_witness :
    ∃ st', ingestData defaultCfg initSt ⟨5, 9, 3, 0, 1 / 10, 7⟩ = some st'
      ∧ dictLookup st'.tick_buffer (DataMsg.tick ⟨5, 9, 3, 0, 1 / 10, 7⟩)
          = some (roundAfter initSt ⟨5, 9, 3, 0, 1 / 10, 7⟩)
      ∧ dictLookup (roundAfter initSt ⟨5, 9, 3, 0, 1 / 10, 7⟩)
          (DataMsg.sidx ⟨5, 9, 3, 0, 1 / 10, 7⟩) = some ⟨3, 0, 1 / 10, 7⟩
      ∧ buildVec (roundAfter initSt ⟨5, 9, 3, 0, 1 / 10, 7⟩) 4 4
          = buildVec ((dictLookup initSt.tick_buffer 5).getD []) 4 4 :=
  C1_out_of_range_accepted defaultCfg initSt ⟨5, 9, 3, 0, 1 / 10, 7⟩ rfl
    (by decide) (by decide)

unseal Rat.add Rat.mul Rat.inv Rat.sub in
/-- C2 counterexample: with NumWorkers = 2, completing tick 0 and then
repeating the identical last Data message yields two history entries and
the Round is still in the active set — a completed Round is never
removed, repetition is not idempotent, and the ScoredRound is emitted
twice. -/
theorem C2_counterexample :
    (ingestAll ⟨2, 1, build_edges 2⟩ initSt
        [⟨0, 0, 1, 0, 0, 7⟩, ⟨0, 1, 0, 0, 0, 7⟩, ⟨0, 1, 0, 0, 0, 7⟩]).map
      (fun s => (s.all_samples.length, dictMem s.tick_buffer 0)) = some (2, true) := by
  decide

/-- C2 (amended): ingest emits a ScoredRound exactly when the write
leaves the Round holding samples for all NumWorkers indices — but the
Round is NOT removed from the active set (it remains in `tick_buffer`
whenever the buffer is small enough to escape cleanup), so emission
recurs on any later write to a completed Round; repeating an identical
Data line is idempotent only while the Round still has fewer than
NumWorkers samples. -/
theorem C2_completion_behavior (cfg : Cfg) (st : St) (d : DataMsg)
    (hedges : cfg.edges = build_edges (cfg.numSlaves * cfg.bitsPerSlave)) :
    ∃ st', ingestData cfg st d = some st'
      ∧ ((∃ e, st'.all_samples = st.all_samples ++ [e]) ↔
          completeRound (roundAfter st d) cfg.numSlaves)
      ∧ (st.tick_buffer.length < 50 → dictMem st'.tick_buffer d.tick = true)
      ∧ ((roundAfter st d).length < cfg.numSlaves →
          ingestData cfg st' d = some st') := by
  obtain ⟨st', hst'⟩ := ingestData_some cfg st d hedges
  refine ⟨st', hst', ingestData_emits_iff cfg st d st' hst', ?_, ?_⟩
  · intro hsmall
    rw [ingestData_buffer_small cfg st d st' hst' hsmall]
    exact dictMem_dictSet_self st.tick_buffer d.tick (roundAfter st d)
  · intro hlt
    have heq := ingestData_incomplete cfg st d hlt
    rw [hst'] at heq
    have hst'' := Option.some.inj heq
    rw [hst'']
    exact ingestData_idem cfg st d hlt

unseal Rat.add Rat.mul Rat.inv Rat.sub in
/-- C2 witness: the amended statement at NumWorkers = 2, tick 0,
worker 0 into the empty state. -/
theorem C2_witness :
    ∃ st', ingestData ⟨2, 1, build_edges 2⟩ initSt ⟨0, 0, 1, 0, 0, 7⟩ = some st'
      ∧ ((∃ e, st'.all_samples = initSt.all_samples ++ [e]) ↔
          completeRound (roundAfter initSt ⟨0, 0, 1, 0, 0, 7⟩) 2)
      ∧ (initSt.tick_buffer.length < 50 →
          dictMem st'.tick_buffer (DataMsg.tick ⟨0, 0, 1, 0, 0, 7⟩) = true)
      ∧ ((roundAfter initSt ⟨0, 0, 1, 0, 0, 7⟩).length < 2 →
          ingestData ⟨2, 1, build_edges 2⟩ st' ⟨0, 0, 1, 0, 0, 7⟩ = some st') :=
  C2_completion_behavior ⟨2, 1, build_edges 2⟩ initSt ⟨0, 0, 1, 0, 0, 7⟩ rfl

unseal Rat.add Rat.mul Rat.inv Rat.sub in
/-- C3 counterexample: after ingesting one sample into each of 51
concurrently-incomplete ticks (NumWorkers = 2), all 51 Rounds remain
active — nothing is evicted, because the cleanup check sits inside the
round-completion branch; the claim's "exactly 20 remain" is false. -/
theorem C3_counterexample :
    (ingestAll ⟨2, 1, build_edges 2⟩ initSt
        ((List.range 51).map (fun t => ⟨Int.ofNat t, 0, 1, 0, 0, 7⟩))).map
      (fun s => s.tick_buffer.length) = some 51
    ∧ (ingestAll ⟨2, 1, build_edges 2⟩ initSt
        ((List.range 51).map (fun t => ⟨Int.ofNat t, 0, 1, 0, 0, 7⟩))).map
      (fun s => s.tick_buffer.length) ≠ some 20 := by
  refine ⟨by decide, by decide⟩

/-- C3 (amended): the eviction check runs only on an ingest that brings
that tick's Round to at least NumWorkers samples — an ingest that leaves
the Round below NumWorkers never evicts anything; when the check does
run with more than 50 active Rounds, the oldest ticks by numeric order
are evicted until exactly 20 remain.  The last three conjuncts pin the
selection: exactly 20 ticks survive, every survivor was active, and the
surviving set is upward closed in numeric tick order — so the survivors
are precisely the 20 numerically largest ticks and the evicted ones the
oldest. -/
theorem C3_eviction_on_completion :
    (∀ (cfg : Cfg) (st : St) (d : DataMsg),
      (roundAfter st d).length < cfg.numSlaves →
      ingestData cfg st d = some { st with tick_buffer := bufAfter st d })
    ∧ (∀ buf : Buffer, (dictKeys buf).Nodup → 50 < buf.length →
        (evictOld buf).length = 20)
    ∧ (∀ (buf : Buffer) (t : Int),
        t ∈ dictKeys (evictOld buf) → t ∈ dictKeys buf)
    ∧ (∀ (buf : Buffer) (t1 t2 : Int), t1 < t2 → t2 ∈ dictKeys buf →
        t1 ∈ dictKeys (evictOld buf) → t2 ∈ dictKeys (evictOld buf)) :=
  ⟨fun cfg st d h => ingestData_incomplete cfg st d h,
   fun buf hnd hlen => evictOld_length buf hnd hlen,
   fun buf t h => evictOld_keys_subset buf t h,
   fun buf t1 t2 hlt hm2 hkept => evictOld_mono buf t1 t2 hlt hm2 hkept⟩

unseal Rat.add Rat.mul Rat.inv Rat.sub in
/-- C3 witness: the no-eviction clause at a first sample for tick 0 under
the default configuration, and the eviction clauses at a 51-key buffer
(ticks 0..50): 20 ticks survive, the survivor 31 was active, and since
tick 31 survives so does tick 32. -/
theorem C3_witness :
    ingestData defaultCfg initSt ⟨0, 0, 1, 0, 0, 7⟩
      = some { initSt with tick_buffer := bufAfter initSt ⟨0, 0, 1, 0, 0, 7⟩ }
    ∧ (evictOld ((List.range 51).map (fun t => (Int.ofNat t, ([] : Round))))).length
        = 20
    ∧ (31 : Int) ∈ dictKeys ((List.range 51).map (fun t => (Int.ofNat t, ([] : Round))))
    ∧ (32 : Int) ∈ dictKeys
        (evictOld ((List.range 51).map (fun t => (Int.ofNat t, ([] : Round))))) :=
  ⟨C3_eviction_on_completion.1 defaultCfg initSt ⟨0, 0, 1, 0, 0, 7⟩ (by decide),
   C3_eviction_on_completion.2.1 ((List.range 51).map (fun t => (Int.ofNat t, [])))
     (by decide) (by decide),
   C3_eviction_on_completion.2.2.1
     ((List.range 51).map (fun t => (Int.ofNat t, []))) 31 (by decide),
   C3_eviction_on_completion.2.2.2
     ((List.range 51).map (fun t => (Int.ofNat t, []))) 31 32 (by decide)
     (by decide) (by decide)⟩

unseal Rat.add Rat.mul Rat.inv Rat.sub in
/-- C4 counterexample: `O,1,0,3,0,0.5,7,99` has seven comma-separated
fields after the tag, not exactly six, yet it is parsed as a Data
message (the extra field is ignored) — "only when it has exactly six
fields" is false. -/
theorem C4_counterexample :
    classifyLine "O,1,0,3,0,0.5,7,99" = Msg.dataMsg ⟨1, 0, 3, 0, 1 / 2, 7⟩
    ∧ (pySplit "O,1,0,3,0,0.5,7,99" ',').length = 8 := by
  refine ⟨by decide, by decide⟩

/-- C4 (amended): a line beginning with the Data marker is parsed as a
Data message exactly when it has AT LEAST six comma-separated fields
after the tag with tick/workerIndex/bitmask/loss/seed decimal integers
and noise a decimal float (fields beyond the sixth are ignored); any
lower field count or non-numeric field classifies the line as
Unparseable, which is discarded without raising, with no state change,
and the stream continues. -/
theorem C4_data_parsing :
    (∀ line : String,
      (∃ d, classifyLine line = Msg.dataMsg d) ↔
        (startswith line "O," = true ∧ 7 ≤ (pySplit line ',').length ∧
         (parseInt ((pySplit line ',').getD 1 "")).isSome = true ∧
         (parseInt ((pySplit line ',').getD 2 "")).isSome = true ∧
         (parseInt ((pySplit line ',').getD 3 "")).isSome = true ∧
         (parseInt ((pySplit line ',').getD 4 "")).isSome = true ∧
         (parseFloat ((pySplit line ',').getD 5 "")).isSome = true ∧
         (parseInt ((pySplit line ',').getD 6 "")).isSome = true))
    ∧ (∀ (cfg : Cfg) (st : St) (line : String),
        classifyLine line = Msg.unparseable →
        lineStep cfg st line = some (st, Signal.contSkip)) :=
  ⟨classify_dataMsg_iff,
   fun cfg st line h => classify_unparseable_state cfg st line h⟩

unseal Rat.add Rat.mul Rat.inv Rat.sub in
/-- C4 witness: well-formed six-field lines are classified as Data —
including the whitespace form `O, 5,9,3,0,0.1,7`, the exponent form
`O,1,2,3,4,1e-3,7` and the underscore/inf form `O,1_0,2,3,4,inf,7`,
all of which Python's `int()`/`float()` accept — while the short line
`O,1,x` is classified Unparseable and leaves the state unchanged with
the stream continuing. -/
theorem C4_witness :
    (∃ d, classifyLine "O,1,2,3,4,0.5,6" = Msg.dataMsg d)
    ∧ (∃ d, classifyLine "O, 5,9,3,0,0.1,7" = Msg.dataMsg d)
    ∧ (∃ d, classifyLine "O,1,2,3,4,1e-3,7" = Msg.dataMsg d)
    ∧ (∃ d, classifyLine "O,1_0,2,3,4,inf,7" = Msg.dataMsg d)
    ∧ lineStep defaultCfg initSt "O,1,x" = some (initSt, Signal.contSkip) :=
  ⟨(C4_data_parsing.1 "O,1,2,3,4,0.5,6").mpr (by decide),
   (C4_data_parsing.1 "O, 5,9,3,0,0.1,7").mpr (by decide),
   (C4_data_parsing.1 "O,1,2,3,4,1e-3,7").mpr (by decide),
   (C4_data_parsing.1 "O,1_0,2,3,4,inf,7").mpr (by decide),
   C4_data_parsing.2 defaultCfg initSt "O,1,x" (by decide)⟩

unseal Rat.add Rat.mul Rat.inv Rat.sub in
/-- C5: BestResult is updated by strict greater-than: folding the
source's update over any nonempty history of nonnegative scores (every
ring score is nonnegative, third conjunct) yields exactly the
earliest-arriving sample whose score equals the maximum; in particular
for scores arriving in order [3, 5, 5, 2] the result is the first
occurrence of score 5. -/
theorem C5_best_strict_greater :
    (∀ l : List (Int × ℚ × List Int), l ≠ [] → (∀ x ∈ l, 0 ≤ x.2.1) →
      ∃ m, firstMaxSample l = some m ∧ foldBest l = (m.2.1, some m.2.2, some m.1))
    ∧ (∀ (bits : List Int) (n : Nat) (s : ℚ),
        maxcut_score bits (make_ring_edges n 1) = some s → 0 ≤ s)
    ∧ firstMaxSample [((0 : Int), (3 : ℚ), [(0 : Int)]), (1, 5, [0]), (2, 5, [1]),
        (3, 2, [0])] = some (1, 5, [0])
    ∧ foldBest [((0 : Int), (3 : ℚ), [(0 : Int)]), (1, 5, [0]), (2, 5, [1]),
        (3, 2, [0])] = (5, some [0], some 1) := by
  refine ⟨foldBest_firstMax, fun bits n s hs => maxcut_ring_nonneg bits n s hs,
    by decide, by decide⟩

unseal Rat.add Rat.mul Rat.inv Rat.sub in
/-- C5 witness: the fold statement applied to the concrete [3, 5, 5, 2]
history. -/
theorem C5_witness :
    ∃ m, firstMaxSample [((0 : Int), (3 : ℚ), [(0 : Int)]), (1, 5, [0]), (2, 5, [1]),
        (3, 2, [0])] = some m
      ∧ foldBest [((0 : Int), (3 : ℚ), [(0 : Int)]), (1, 5, [0]), (2, 5, [1]),
        (3, 2, [0])] = (m.2.1, some m.2.2, some m.1) :=
  C5_best_strict_greater.1 _ (by decide) (by decide)

unseal Rat.add Rat.mul Rat.inv Rat.sub in
/-- C6 counterexample: for N = 3 the strict alternating assignment
`[0, 1, 0]` scores 2, not 3 — the claimed "score equals N for any strict
alternating assignment" fails for odd N (the wraparound edge is uncut). -/
theorem C6_counterexample :
    altVec 0 3 = [0, 1, 0]
    ∧ maxcut_score (altVec 0 3) (make_ring_edges 3 1) = some 2
    ∧ (2 : ℚ) ≠ 3 := by
  refine ⟨by decide, by decide, by norm_num⟩

/-- C6 (amended): for every N ≥ 1 and every bit assignment the
unit-weight N-ring score is defined and at most N; for every EVEN
N ≥ 2 and 0/1-valued bits, the score equals N exactly for the strict
alternating assignments, so the maximum achievable even-ring score is
exactly N. -/
theorem C6_ring_maximum (n : Nat) (bits : List Int) (hlen : bits.length = n) :
    (∀ s, maxcut_score bits (make_ring_edges n 1) = some s → s ≤ n)
    ∧ (1 ≤ n → ∃ s, maxcut_score bits (make_ring_edges n 1) = some s)
    ∧ (n % 2 = 0 → 1 ≤ n → (∀ x ∈ bits, x = 0 ∨ x = 1) →
        (maxcut_score bits (make_ring_edges n 1) = some (n : ℚ) ↔
          ∃ b, (b = 0 ∨ b = 1) ∧ bits = altVec b n)) := by
  refine ⟨fun s hs => maxcut_ring_le bits n hlen s hs, ?_, ?_⟩
  · intro _
    rw [maxcut_score_ring bits n 1 hlen]
    exact ⟨_, rfl⟩
  · intro hev h1 hb
    exact ring_cut_iff bits n hlen hev h1 hb

unseal Rat.add Rat.mul Rat.inv Rat.sub in
/-- C6 witness: the even case N = 4 — the alternating assignment
`[0, 1, 0, 1]` achieves score 4. -/
theorem C6_witness :
    maxcut_score (altVec 0 4) (make_ring_edges 4 1) = some 4 :=
  ((C6_ring_maximum 4 (altVec 0 4) (by decide)).2.2 (by decide) (by decide)
    (by decide)).mpr ⟨0, Or.inl rfl, rfl⟩

/-- C7: the inactivity deadline is re-armed on every received (nonempty)
line — the run of the loop after such a line is independent of the
previously armed time, so the deadline measures silence since the last
received data, not total runtime; and whenever a read returns no line and
the clock exceeds the armed time by more than `READ_TIMEOUT_S`, the loop
terminates immediately with the timeout cause. -/
theorem C7_inactivity_timeout (cfg : Cfg) (st : St) (a b : ℚ) (tl : TimedLine)
    (rest : List TimedLine) :
    (pyStrip tl.raw ≠ "" →
      runLoop cfg st a (tl :: rest) = runLoop cfg st b (tl :: rest))
    ∧ (pyStrip tl.raw = "" → READ_TIMEOUT_S < tl.chkTime - a →
        runLoop cfg st a (tl :: rest) = (st, a, Cause.timeoutCause)) :=
  ⟨fun h => runLoop_rearm cfg st a b tl rest h,
   fun he hl => runLoop_timeout cfg st a tl rest he hl⟩

unseal Rat.add Rat.mul Rat.inv Rat.sub in
/-- C7 witness: a nonempty line makes the run independent of the old
armed time, and 26 seconds of silence against the 25-second budget
terminates with the timeout cause. -/
theorem C7_witness :
    (runLoop defaultCfg initSt 0 [⟨"@DONE", 1, 2⟩]
      = runLoop defaultCfg initSt 99 [⟨"@DONE", 1, 2⟩])
    ∧ runLoop defaultCfg initSt 0 [⟨"", 0, 26⟩] = (initSt, 0, Cause.timeoutCause) :=
  ⟨(C7_inactivity_timeout defaultCfg initSt 0 99 ⟨"@DONE", 1, 2⟩ []).1 (by decide),
   (C7_inactivity_timeout defaultCfg initSt 0 0 ⟨"", 0, 26⟩ []).2 (by decide)
     (by decide)⟩

/-- C8: for a completed Round the assembled vector is the concatenation,
in ascending workerIndex order, of each worker's `BitsPerWorker`-bit
chunk; its total length is `NumWorkers * BitsPerWorker`; a chunk depends
only on the low `BitsPerWorker` bits of the bitmask, and bit `i` of a
chunk is `(bitmask >> i) & 1`. -/
theorem C8_assembled_vector (r : Round) (n w : Nat) (hc : completeRound r n) :
    buildVec r n w = (List.range n).map (fun s => chunkAt r w s)
    ∧ (buildVec r n w).flatten.length = n * w
    ∧ (∀ bm : Int, bits_from_bmask (bm % 2 ^ w) w = bits_from_bmask bm w)
    ∧ (∀ (bm : Int) (i : Nat), i < w →
        (bits_from_bmask bm w).getD i 0 = Int.fdiv bm (2 ^ i) % 2) := by
  have h1 : buildVec r n w = (List.range n).map (fun s => chunkAt r w s) := by
    rw [buildVec, buildVecFrom_of_complete r w n 0 (fun k hk => by simpa using hc k hk)]
    apply List.map_congr_left
    intro k _
    simp
  refine ⟨h1, ?_, fun bm => bits_from_bmask_low_bits bm w,
    fun bm i hi => bits_from_bmask_getD bm w i hi⟩
  have hlen : (buildVec r n w).length = n := by
    rw [h1]
    simp
  rw [flatten_length_of_chunks w (buildVec r n w)
    (fun c hcm => buildVecFrom_chunk_length r w n 0 c hcm), hlen]

unseal Rat.add Rat.mul Rat.inv Rat.sub in
/-- C8 witness: the assembly statement at a concrete completed two-worker
round with 4-bit chunks. -/
theorem C8_witness :
    buildVec [((0 : Int), (⟨5, 0, 0, 7⟩ : Sample)), (1, ⟨2, 0, 0, 7⟩)] 2 4
        = (List.range 2).map
          (fun s => chunkAt [((0 : Int), (⟨5, 0, 0, 7⟩ : Sample)), (1, ⟨2, 0, 0, 7⟩)] 4 s)
    ∧ (buildVec [((0 : Int), (⟨5, 0, 0, 7⟩ : Sample)), (1, ⟨2, 0, 0, 7⟩)] 2 4).flatten.length
        = 2 * 4
    ∧ (∀ bm : Int, bits_from_bmask (bm % 2 ^ 4) 4 = bits_from_bmask bm 4)
    ∧ (∀ (bm : Int) (i : Nat), i < 4 →
        (bits_from_bmask bm 4).getD i 0 = Int.fdiv bm (2 ^ i) % 2) :=
  C8_assembled_vector [((0 : Int), (⟨5, 0, 0, 7⟩ : Sample)), (1, ⟨2, 0, 0, 7⟩)] 2 4
    (by decide)

/-- C9: one iteration of the streaming loop completes without raising on
every input line whatsoever — with the ring edge list the session
actually builds, `lineStep` always returns a successor state (every line
is consumed into state or discarded), so no single line can crash the
session. -/
theorem C9_no_crash (cfg : Cfg) (st : St) (line : String)
    (hedges : cfg.edges = build_edges (cfg.numSlaves * cfg.bitsPerSlave)) :
    ∃ out, lineStep cfg st line = some out :=
  lineStep_some cfg st line hedges

/-- C9 witness: the statement at a garbage line under the default
configuration. -/
theorem C9_witness :
    ∃ out, lineStep defaultCfg initSt "@@garbage,,,!!" = some out :=
  C9_no_crash defaultCfg initSt "@@garbage,,,!!" rfl

unseal Rat.add Rat.mul Rat.inv Rat.sub in
/-- C10: a Data line with a negative integer tick is accepted at the
public interface (here: `O,-3,0,1,0,0.5,7` parses as a Data message) and
its ingestion creates or mutates the Round keyed by that negative tick;
and under the numeric-oldest-first eviction order, whenever a negative
tick survives eviction every non-negative tick survives as well —
negative ticks are evicted before all non-negative ones. -/
theorem C10_negative_ticks (cfg : Cfg) (st : St) (d : DataMsg)
    (hedges : cfg.edges = build_edges (cfg.numSlaves * cfg.bitsPerSlave))
    (_hneg : d.tick < 0) (hsmall : st.tick_buffer.length < 50) :
    (∃ st', ingestData cfg st d = some st'
      ∧ dictLookup st'.tick_buffer d.tick = some (roundAfter st d))
    ∧ classifyLine "O,-3,0,1,0,0.5,7" = Msg.dataMsg ⟨-3, 0, 1, 0, 1 / 2, 7⟩
    ∧ (∀ (buf : Buffer) (t1 t2 : Int), t1 < 0 → 0 ≤ t2 →
        t1 ∈ dictKeys buf → t2 ∈ dictKeys buf →
        t1 ∈ dictKeys (evictOld buf) → t2 ∈ dictKeys (evictOld buf)) := by
  refine ⟨?_, by decide, ?_⟩
  · obtain ⟨st', hst'⟩ := ingestData_some cfg st d hedges
    refine ⟨st', hst', ?_⟩
    rw [ingestData_buffer_small cfg st d st' hst' hsmall]
    exact dictLookup_dictSet_self st.tick_buffer d.tick (roundAfter st d)
  · intro buf t1 t2 h1 h2 hm1 hm2 hkept
    exact evictOld_order buf t1 t2 h1 h2 hm1 hm2 hkept

unseal Rat.add Rat.mul Rat.inv Rat.sub in
/-- C10 witness: the statement at the message with tick -5 into the
empty state under the default configuration. -/
theorem C10_witness :
    ∃ st', ingestData defaultCfg initSt ⟨-5, 0, 1, 0, 0, 7⟩ = some st'
      ∧ dictLookup st'.tick_buffer (DataMsg.tick ⟨-5, 0, 1, 0, 0, 7⟩)
          = some (roundAfter initSt ⟨-5, 0, 1, 0, 0, 7⟩) :=
  (C10_negative_ticks defaultCfg initSt ⟨-5, 0, 1, 0, 0, 7⟩ rfl (by decide)
    (by decide)).1

end MaxCutClient
